import Mathlib

/-!
# Compile-time rational arithmetic of `ntl/stlx/ratio.hxx`

A shallow embedding of the `ratio` class template, the overflow-checked integer
primitives and the rational combinators and comparators built from them.

Modelling conventions.

* `ratio_t` is a two's-complement signed integer of `8 * sz` bits, `uratio_t` the
  unsigned integer of the same width, where `sz = sizeof(uratio_t)`.  The source
  defines two configurations, `sz = 8` (`intmax_t`) and `sz = 4` (`int`); the
  definitions below take `sz` as a parameter.
* Values are `Int`.  Every signed operation of the source (`+`, `-`, `*`, `/`,
  unary `-`) is followed by `wrap`, the reduction into `[RATIO_MIN, RATIO_MAX]`
  modulo `2 ^ (8 * sz)`; every unsigned operation is followed by `toU`, the
  reduction into `[0, 2 ^ (8 * sz))`.  `/` and `%` are the truncating `Int.tdiv`
  and `Int.tmod`.
* A template instantiation that trips a `static_assert` (or is ill-formed) is a
  failed computation: `Except.error` with the diagnostic, otherwise `Except.ok`.
  Where several templates are instantiated one after the other, the `Except`
  value keeps the first diagnostic in instantiation order; the later templates
  are instantiated all the same, and `ratio_add_diagnostics` lists every
  assertion of `ratio_add` that fails.
* A constant whose evaluation overflowed is folded to its wrapped value where it
  is a template argument or the initialiser of a member, but it is not a constant
  expression any more: a `static_assert` whose condition reads it does not hold.
  The conditions of `check_add_flows` and `check_sub_flows` are template arguments
  and are folded.  The four conditions of `ratio_checked_multiply` read the members
  `absa` and `absb`; they do not hold when `abs<a>` or `abs<b>` overflowed
  (`abs_overflows`), nor when an operand is a quotient by a `gcd` computed from an
  overflowed `abs` (`gcd_overflows`, in `ratio_multiply`).
* Template recursion (`gcd_impl`) is a recursion on an explicit instantiation
  depth; `gcd` supplies a depth that is proved sufficient.
-/

namespace Ntl

/-- Diagnostics of a failed instantiation: the six `static_assert` messages of the
source, the ambiguity of `gcd_impl<0, 0>` and the exhaustion of the instantiation
depth. -/
inductive Error where
  /-- "template argument D shall not be zero" -/
  | ZeroDenominator
  /-- "out of range" -/
  | OutOfRange
  /-- "add overflow" -/
  | AddOverflow
  /-- "sub underflow" -/
  | SubUnderflow
  /-- "mul overflow": an assertion of `ratio_checked_multiply` does not hold, because
  its condition is false or because it is not a constant expression. -/
  | MulOverflow
  /-- "division by zero" -/
  | DivisionByZero
  /-- Both partial specialisations `gcd_impl<a, 0>` and `gcd_impl<0, b>` match. -/
  | AmbiguousSpecialization
  /-- The instantiation depth given to `gcd_impl` is used up. -/
  | InstantiationDepth
  deriving DecidableEq, Repr

deriving instance DecidableEq for Except

/-- The members `num` and `den` of an instantiated `ratio<N, D>`. -/
structure RationalValue where
  num : Int
  den : Int
  deriving DecidableEq, Repr

/-- The value `2 ^ (8 * sz - 1)`, the magnitude of `RATIO_MIN`. -/
def half (sz : Nat) : Nat := 2 ^ (8 * sz - 1)

/-- `RATIO_MAX`: `LLONG_MAX` or `INT_MAX`. -/
def RATIO_MAX (sz : Nat) : Int := (half sz : Int) - 1

/-- `RATIO_MIN`: `LLONG_MIN` or `-2147483647 - 1`. -/
def RATIO_MIN (sz : Nat) : Int := -(half sz : Int)

/-- Reduction of an exact integer to the `ratio_t` value with the same low bits. -/
def wrap (sz : Nat) (x : Int) : Int :=
  (x + (half sz : Int)) % (2 * (half sz : Int)) - (half sz : Int)

/-- Reduction of an exact integer to the `uratio_t` value with the same low bits. -/
def toU (sz : Nat) (x : Int) : Int := x % (2 * (half sz : Int))

/-- Signed division `a / b` of the source: truncating, then reduced to `ratio_t`. -/
def sdiv (sz : Nat) (a b : Int) : Int := wrap sz (Int.tdiv a b)

/-- `sign<a>`: `(a < 0) ? -1 : 1`. -/
def sign (a : Int) : Int := if a < 0 then -1 else 1

/-- `is_negative<a>`: `(a < 0)`. -/
def is_negative (a : Int) : Bool := decide (a < 0)

/-- `abs<a>`: `(a >= 0) ? a : 0-a`. -/
def abs (sz : Nat) (a : Int) : Int := if a ≥ 0 then a else wrap sz (0 - a)

/-- `gcd_impl<a, b>`: the primary template inherits from `gcd_impl<b, a % b>`, the
partial specialisations `<a, 0>` and `<0, b>` give `a` and `b`; `<0, 0>` matches
both specialisations.  The first argument is the instantiation depth. -/
def gcd_impl : Nat → Int → Int → Except Error Int
  | 0, _, _ => .error .InstantiationDepth
  | depth + 1, a, b =>
    if b = 0 then (if a = 0 then .error .AmbiguousSpecialization else .ok a)
    else if a = 0 then .ok b
    else gcd_impl depth b (Int.tmod a b)

/-- `gcd<a, b>`: `gcd_impl< abs<a>::value, abs<b>::value >`. -/
def gcd (sz : Nat) (a b : Int) : Except Error Int :=
  gcd_impl ((abs sz b).natAbs + 1) (abs sz a) (abs sz b)

/-- The `static_assert`s of `ratio<N, D>` on its arguments. -/
def InRange (sz : Nat) (x : Int) : Prop := RATIO_MIN sz ≤ x ∧ x ≤ RATIO_MAX sz

instance (sz : Nat) (x : Int) : Decidable (InRange sz x) := by
  unfold InRange; infer_instance

/-- Class template `ratio<N, D>`: the two `static_assert`s are checked when the class
is instantiated, then `gcd_value`, `num` and `den` are evaluated. -/
def ratio (sz : Nat) (N D : Int) : Except Error RationalValue :=
  if D = 0 then .error .ZeroDenominator
  else if ¬ (InRange sz N ∧ InRange sz D) then .error .OutOfRange
  else do
    let gcd_value ← gcd sz N D
    pure { num := sdiv sz (wrap sz (N * sign D)) gcd_value,
           den := sdiv sz (abs sz D) gcd_value }

/-- `check_add_overflow_impl<a, b, negative_values>`: case 1 of the source for
`false`, case 4 for `true`. -/
def check_add_overflow_impl (sz : Nat) (a b : Int) (negative_values : Bool) : Bool :=
  if negative_values then decide (wrap sz (RATIO_MIN sz + abs sz a) ≤ b)
  else decide (abs sz a ≤ wrap sz (RATIO_MAX sz - abs sz b))

/-- `check_sub_underflow_impl<a, b>`: case 2 of the source. -/
def check_sub_underflow_impl (sz : Nat) (a b : Int) : Bool :=
  decide (wrap sz (RATIO_MIN sz + abs sz a) < abs sz b)

/-- `check_add_overflow<a, b>`: the third argument is
`is_negative<a> == is_negative<b> == true`. -/
def check_add_overflow (sz : Nat) (a b : Int) : Bool :=
  check_add_overflow_impl sz a b ((is_negative a == is_negative b) == true)

/-- `check_sub_underflow<a, b>`: cases 2 and 3 of the source. -/
def check_sub_underflow (sz : Nat) (a b : Int) : Bool :=
  if is_negative a then check_sub_underflow_impl sz a b
  else check_sub_underflow_impl sz b a

/-- `check_add_flows<a, b>`. -/
def check_add_flows (sz : Nat) (a b : Int) : Bool :=
  if is_negative a || is_negative b then
    (if is_negative a && is_negative b then check_add_overflow_impl sz a b true
     else check_sub_underflow sz a b)
  else check_add_overflow_impl sz a b false

/-- `check_sub_flows<a, b>`. -/
def check_sub_flows (sz : Nat) (a b : Int) : Bool :=
  if is_negative a then
    (if is_negative b then check_sub_underflow_impl sz a b
     else check_add_overflow_impl sz a b true)
  else
    (if is_negative b then check_add_overflow_impl sz a b false
     else check_sub_underflow_impl sz b a)

/-- `ratio_checked_add<a, b>`: static addition with overflow detection. -/
def ratio_checked_add (sz : Nat) (a b : Int) : Except Error Int :=
  if check_add_flows sz a b then .ok (wrap sz (a + b)) else .error .AddOverflow

/-- `ratio_checked_sub<a, b>`: static subtraction with underflow detection. -/
def ratio_checked_sub (sz : Nat) (a b : Int) : Except Error Int :=
  if check_sub_flows sz a b then .ok (wrap sz (a - b)) else .error .SubUnderflow

/-- The four `static_assert`s of `ratio_checked_multiply<a, b>`, in `uratio_t`
arithmetic, with `c = 1LL << (sizeof(uratio_t)*4)`. -/
def mul_asserts (sz : Nat) (a b : Int) : Bool :=
  let absa := toU sz (abs sz a)
  let absb := toU sz (abs sz b)
  let c := toU sz (2 ^ (sz * 4))
  let a1 := absa % c
  let a2 := absa / c
  let b1 := absb % c
  let b2 := absb / c
  decide (a2 = 0 ∨ b2 = 0)
    && decide (toU sz (a1 * b2 + b1 * a2) < c / 2)
    && decide (toU sz (a1 * b1) ≤ toU sz (RATIO_MAX sz))
    && decide (toU sz (toU sz (a1 * b2 + b1 * a2) * c)
                ≤ toU sz (toU sz (RATIO_MAX sz) - toU sz (a1 * b1)))

/-- The constant `abs<a>::value` is the result of an overflow: `a` is negative and
`0-a` is not a value of `ratio_t`. -/
def abs_overflows (sz : Nat) (a : Int) : Bool :=
  decide (a < 0 ∧ wrap sz (0 - a) ≠ 0 - a)

/-- The constant `gcd<a, b>::value` is computed from an overflowed `abs<a>::value` or
`abs<b>::value`. -/
def gcd_overflows (sz : Nat) (a b : Int) : Bool :=
  abs_overflows sz a || abs_overflows sz b

/-- `ratio_checked_multiply<a, b>`: static multiplication with overflow detection.
The four assertions read `absa` and `absb`; when one of these is an overflowed
constant none of them holds. -/
def ratio_checked_multiply (sz : Nat) (a b : Int) : Except Error Int :=
  if abs_overflows sz a || abs_overflows sz b then .error .MulOverflow
  else if mul_asserts sz a b then .ok (wrap sz (a * b)) else .error .MulOverflow

/-- The diagnostic of one instantiation, none when it has a value. -/
def diagnostic {α : Type} (x : Except Error α) : List Error :=
  match x with
  | .error e => [e]
  | .ok _ => []

/-- `ratio_add<R1, R2>`: the value of the instantiation when every assertion holds,
otherwise the first diagnostic in instantiation order.  Its `dens_gcd` is computed from
an overflowed `abs` only when a denominator is `RATIO_MIN`, and then the
`ratio_checked_multiply` of the denominators fails in any case (`ratio_add_den_min`). -/
def ratio_add (sz : Nat) (R1 R2 : RationalValue) : Except Error RationalValue := do
  let dens_gcd ← gcd sz R1.den R2.den
  let n1 ← ratio_checked_multiply sz R1.num (sdiv sz R2.den dens_gcd)
  let n2 ← ratio_checked_multiply sz R2.num (sdiv sz R1.den dens_gcd)
  let n ← ratio_checked_add sz n1 n2
  let d ← ratio_checked_multiply sz R1.den (sdiv sz R2.den dens_gcd)
  ratio sz n d

/-- All diagnostics of `ratio_add<R1, R2>`, in instantiation order.  The three
`ratio_checked_multiply`, the `ratio_checked_add` and the `ratio` named in the
typedef are all instantiated; each takes the member `value` of its arguments, which
is `a * b` or `a + b` whether or not the assertion beside it holds, so the assertion
of `ratio_checked_add` is checked independently of those of
`ratio_checked_multiply`. -/
def ratio_add_diagnostics (sz : Nat) (R1 R2 : RationalValue) : List Error :=
  match gcd sz R1.den R2.den with
  | .error e => [e]
  | .ok dens_gcd =>
    let n1 := wrap sz (R1.num * sdiv sz R2.den dens_gcd)
    let n2 := wrap sz (R2.num * sdiv sz R1.den dens_gcd)
    let d := wrap sz (R1.den * sdiv sz R2.den dens_gcd)
    diagnostic (ratio_checked_multiply sz R1.num (sdiv sz R2.den dens_gcd))
      ++ diagnostic (ratio_checked_multiply sz R2.num (sdiv sz R1.den dens_gcd))
      ++ diagnostic (ratio_checked_add sz n1 n2)
      ++ diagnostic (ratio_checked_multiply sz R1.den (sdiv sz R2.den dens_gcd))
      ++ diagnostic (ratio sz (wrap sz (n1 + n2)) d)

/-- `ratio_subtract<R1, R2>`: `ratio_add<R1, ratio<-R2::num, R2::den> >`. -/
def ratio_subtract (sz : Nat) (R1 R2 : RationalValue) : Except Error RationalValue := do
  let R2neg ← ratio sz (wrap sz (-R2.num)) R2.den
  ratio_add sz R1 R2neg

/-- `ratio_multiply<R1, R2>`.  The arguments of both `ratio_checked_multiply` are
quotients by `gcd1` and `gcd2`; when one of these is computed from an overflowed
`abs`, the assertions of `ratio_checked_multiply` read an overflowed constant and do
not hold. -/
def ratio_multiply (sz : Nat) (R1 R2 : RationalValue) : Except Error RationalValue := do
  let gcd1 ← gcd sz R1.num R2.den
  let gcd2 ← gcd sz R2.num R1.den
  if gcd_overflows sz R1.num R2.den || gcd_overflows sz R2.num R1.den then
    .error .MulOverflow
  else do
    let n ← ratio_checked_multiply sz (sdiv sz R1.num gcd1) (sdiv sz R2.num gcd2)
    let d ← ratio_checked_multiply sz (sdiv sz R1.den gcd2) (sdiv sz R2.den gcd1)
    ratio sz n d

/-- `ratio_divide<R1, R2>`: `ratio_multiply<R1, ratio<R2::den, R2::num> >` behind the
assertion on `R2::num`. -/
def ratio_divide (sz : Nat) (R1 R2 : RationalValue) : Except Error RationalValue :=
  if R2.num = 0 then .error .DivisionByZero
  else do
    let R2inv ← ratio sz R2.den R2.num
    ratio_multiply sz R1 R2inv

/-- `ratio_equal<R1, R2>`. -/
def ratio_equal (R1 R2 : RationalValue) : Bool :=
  decide (R1.num = R2.num) && decide (R1.den = R2.den)

/-- `ratio_not_equal<R1, R2>`. -/
def ratio_not_equal (R1 R2 : RationalValue) : Bool := !ratio_equal R1 R2

/-- `ratio_less_common<R1, R2>`. -/
def ratio_less_common (sz : Nat) (R1 R2 : RationalValue) : Except Error Bool := do
  let l ← ratio_checked_multiply sz R1.num R2.den
  let r ← ratio_checked_multiply sz R2.num R1.den
  pure (decide (l < r))

/-- `ratio_less<R1, R2>`. -/
def ratio_less (sz : Nat) (R1 R2 : RationalValue) : Except Error Bool :=
  if R1.den = R2.den then .ok (decide (R1.num < R2.num))
  else ratio_less_common sz R1 R2

/-- `ratio_less_equal<R1, R2>`. -/
def ratio_less_equal (sz : Nat) (R1 R2 : RationalValue) : Except Error Bool := do
  let l ← ratio_less sz R2 R1
  pure (!l)

/-- `ratio_greater<R1, R2>`. -/
def ratio_greater (sz : Nat) (R1 R2 : RationalValue) : Except Error Bool :=
  ratio_less sz R2 R1

/-- `ratio_greater_equal<R1, R2>`. -/
def ratio_greater_equal (sz : Nat) (R1 R2 : RationalValue) : Except Error Bool := do
  let l ← ratio_less sz R1 R2
  pure (!l)

/-- Canonical form of the data model: positive denominator, lowest terms, both
components in the domain. -/
def Canonical (sz : Nat) (R : RationalValue) : Prop :=
  0 < R.den ∧ Int.gcd R.num R.den = 1 ∧ InRange sz R.num ∧ InRange sz R.den

instance (sz : Nat) (R : RationalValue) : Decidable (Canonical sz R) := by
  unfold Canonical; infer_instance

/-! ## Arithmetic of the domain -/

theorem half_pos (sz : Nat) : (0 : Int) < (half sz : Int) := by
  have : 0 < half sz := by unfold half; positivity
  exact_mod_cast this

theorem two_half (sz : Nat) (hsz : 0 < sz) :
    2 * (half sz : Int) = (2 : Int) ^ (sz * 4) * (2 : Int) ^ (sz * 4) := by
  have h : 2 * half sz = 2 ^ (sz * 4) * 2 ^ (sz * 4) := by
    unfold half
    rw [← pow_succ', ← pow_add]
    congr 1
    omega
  exact_mod_cast h

theorem pow_half (sz : Nat) (hsz : 0 < sz) :
    (2 : Int) ^ (sz * 4) = 2 * (2 : Int) ^ (sz * 4 - 1) := by
  rw [← pow_succ']
  congr 1
  omega

theorem wrap_lower (sz : Nat) (x : Int) : -(half sz : Int) ≤ wrap sz x := by
  have h := half_pos sz
  have := Int.emod_nonneg (x + (half sz : Int)) (show 2 * (half sz : Int) ≠ 0 by omega)
  unfold wrap
  omega

theorem wrap_upper (sz : Nat) (x : Int) : wrap sz x < (half sz : Int) := by
  have h := half_pos sz
  have := Int.emod_lt_of_pos (x + (half sz : Int)) (show 0 < 2 * (half sz : Int) by omega)
  unfold wrap
  omega

theorem wrap_eq (sz : Nat) (x : Int) (h1 : -(half sz : Int) ≤ x) (h2 : x < (half sz : Int)) :
    wrap sz x = x := by
  unfold wrap
  rw [Int.emod_eq_of_lt (by omega) (by omega)]
  omega

theorem wrap_shift (sz : Nat) (x k : Int) : wrap sz (x + k * (2 * (half sz : Int))) = wrap sz x := by
  unfold wrap
  rw [show x + k * (2 * (half sz : Int)) + (half sz : Int)
        = x + (half sz : Int) + (2 * (half sz : Int)) * k by ring, Int.add_mul_emod_self_left]

theorem wrap_eq_sub (sz : Nat) (x : Int) (h1 : (half sz : Int) ≤ x) (h2 : x < 3 * (half sz : Int)) :
    wrap sz x = x - 2 * (half sz : Int) := by
  have := wrap_shift sz (x - 2 * (half sz : Int)) 1
  rw [show x - 2 * (half sz : Int) + 1 * (2 * (half sz : Int)) = x by ring] at this
  rw [this, wrap_eq sz _ (by omega) (by omega)]

theorem wrap_eq_add (sz : Nat) (x : Int) (h1 : -3 * (half sz : Int) ≤ x) (h2 : x < -(half sz : Int)) :
    wrap sz x = x + 2 * (half sz : Int) := by
  have := wrap_shift sz x 1
  rw [← this, wrap_eq sz _ (by omega) (by omega)]
  ring

theorem toU_eq (sz : Nat) (x : Int) (h1 : 0 ≤ x) (h2 : x < 2 * (half sz : Int)) : toU sz x = x := by
  unfold toU
  exact Int.emod_eq_of_lt h1 h2

theorem toU_neg (sz : Nat) (x : Int) (h1 : -(2 * (half sz : Int)) ≤ x) (h2 : x < 0) :
    toU sz x = x + 2 * (half sz : Int) := by
  unfold toU
  rw [← Int.add_mul_emod_self_left x (2 * (half sz : Int)) 1, Int.emod_eq_of_lt (by omega) (by omega)]
  ring

/-- `abs` is the mathematical absolute value away from `RATIO_MIN`. -/
theorem abs_eq (sz : Nat) (a : Int) (h1 : -(half sz : Int) < a) (h2 : a < (half sz : Int)) :
    abs sz a = |a| := by
  unfold abs
  split
  · rw [abs_of_nonneg (by omega)]
  · rw [wrap_eq sz _ (by omega) (by omega), abs_of_neg (by omega)]
    ring

/-- `abs<RATIO_MIN>` is `RATIO_MIN`: the subtraction `0 - a` overflows. -/
theorem abs_min (sz : Nat) : abs sz (-(half sz : Int)) = -(half sz : Int) := by
  have h := half_pos sz
  unfold abs
  rw [if_neg (by omega), wrap_eq_sub sz _ (by omega) (by omega)]
  ring

/-- As a `uratio_t`, `abs<a>::value` is the mathematical absolute value on the whole domain. -/
theorem toU_abs (sz : Nat) (a : Int) (h1 : -(half sz : Int) ≤ a) (h2 : a < (half sz : Int)) :
    toU sz (abs sz a) = |a| := by
  have h := half_pos sz
  by_cases hm : a = -(half sz : Int)
  · subst hm
    rw [abs_min, toU_neg sz _ (by omega) (by omega), abs_of_neg (by omega)]
    ring
  · have hlt : -(half sz : Int) < a := by omega
    rw [abs_eq sz a hlt h2]
    have hlt2 : |a| < (half sz : Int) := abs_lt.2 ⟨hlt, h2⟩
    exact toU_eq sz _ (abs_nonneg a) (by omega)

/-- The four assertions of the half-width decomposition, over exact integers: with
`c = 2 * k`, low halves `a1, b1 < c` and high halves `a2, b2 ≤ k`, they hold exactly
when the product of the recomposed magnitudes is at most `c * k - 1`. -/
theorem split_mul_iff (c k a1 a2 b1 b2 : Int) (hk : 0 < k) (hc : c = 2 * k)
    (ha1 : 0 ≤ a1) (ha1c : a1 < c) (ha2 : 0 ≤ a2) (ha2k : a2 ≤ k)
    (hb1 : 0 ≤ b1) (hb1c : b1 < c) (hb2 : 0 ≤ b2) (hb2k : b2 ≤ k) :
    ((a2 = 0 ∨ b2 = 0) ∧ (a1 * b2 + b1 * a2) % (c * c) < c / 2 ∧
      (a1 * b1) % (c * c) ≤ (c * k - 1) % (c * c) ∧
      ((a1 * b2 + b1 * a2) % (c * c) * c) % (c * c)
        ≤ ((c * k - 1) % (c * c) - (a1 * b1) % (c * c)) % (c * c))
    ↔ (c * a2 + a1) * (c * b2 + b1) ≤ c * k - 1 := by
  subst hc
  have hkk : 0 < k * k := mul_pos hk hk
  have hcc : 2 * k * (2 * k) = 4 * (k * k) := by ring
  have hck : 2 * k * k = 2 * (k * k) := by ring
  have hab0 : 0 ≤ a1 * b1 := mul_nonneg ha1 hb1
  have hablt : a1 * b1 ≤ 4 * (k * k) - 4 * k + 1 := by
    have : a1 * b1 ≤ (2 * k - 1) * (2 * k - 1) :=
      mul_le_mul (by omega) (by omega) hb1 (by omega)
    have e1 : (2 * k - 1) * (2 * k - 1) = 4 * (k * k) - 4 * k + 1 := by ring
    omega
  have e2 : (2 * k - 1) * k = 2 * (k * k) - k := by ring
  have hP0 : 0 ≤ a1 * b2 + b1 * a2 := add_nonneg (mul_nonneg ha1 hb2) (mul_nonneg hb1 ha2)
  have hPlt : a1 * b2 + b1 * a2 ≤ 4 * (k * k) - 2 * k := by
    have hxlt : a1 * b2 ≤ (2 * k - 1) * k := mul_le_mul (by omega) hb2k hb2 (by omega)
    have hylt : b1 * a2 ≤ (2 * k - 1) * k := mul_le_mul (by omega) ha2k ha2 (by omega)
    omega
  have h00 : 0 ≤ a2 * b2 := mul_nonneg ha2 hb2
  have hzero : a2 * b2 = 0 ↔ (a2 = 0 ∨ b2 = 0) := mul_eq_zero
  have hexp : (2 * k * a2 + a1) * (2 * k * b2 + b1)
      = 4 * (k * k * (a2 * b2)) + 2 * (k * (a1 * b2 + b1 * a2)) + a1 * b1 := by ring
  rw [hexp, hcc, hck, ← hzero]
  clear hexp hzero
  generalize a1 * b2 + b1 * a2 = P at *
  generalize a1 * b1 = Q at *
  generalize a2 * b2 = Z at *
  have hmax : (2 * (k * k) - 1) % (4 * (k * k)) = 2 * (k * k) - 1 :=
    Int.emod_eq_of_lt (by omega) (by omega)
  have hab : Q % (4 * (k * k)) = Q := Int.emod_eq_of_lt hab0 (by omega)
  have hcr : P % (4 * (k * k)) = P := Int.emod_eq_of_lt hP0 (by omega)
  have h2 : 2 * k / 2 = k := by omega
  have hkP0 : 0 ≤ k * P := mul_nonneg hk.le hP0
  have hPk : P * (2 * k) = 2 * (k * P) := by ring
  have hZ0 : 0 ≤ k * k * Z := mul_nonneg hkk.le h00
  rw [hmax, hab, hcr, h2, hPk]
  constructor
  · rintro ⟨h0, hlt, hle, h4⟩
    have hkP : k * P ≤ k * (k - 1) := mul_le_mul_of_nonneg_left (by omega) hk.le
    have e3 : k * (k - 1) = k * k - k := by ring
    rw [e3] at hkP
    rw [Int.emod_eq_of_lt (by omega) (by omega),
      Int.emod_eq_of_lt (by omega) (by omega)] at h4
    rw [h0]
    omega
  · intro h
    have hz : Z = 0 := by
      by_contra hne
      have h1 : k * k * 1 ≤ k * k * Z := mul_le_mul_of_nonneg_left (by omega) hkk.le
      omega
    have hlt : P < k := by
      by_contra hge
      have h1 : k * k ≤ k * P := mul_le_mul_of_nonneg_left (by omega) hk.le
      omega
    have hkP : k * P ≤ k * (k - 1) := mul_le_mul_of_nonneg_left (by omega) hk.le
    have e3 : k * (k - 1) = k * k - k := by ring
    rw [e3] at hkP
    rw [hz] at h
    refine ⟨hz, hlt, by omega, ?_⟩
    rw [Int.emod_eq_of_lt (by omega) (by omega),
      Int.emod_eq_of_lt (by omega) (by omega)]
    omega

theorem inRange_iff (sz : Nat) (x : Int) :
    InRange sz x ↔ -(half sz : Int) ≤ x ∧ x < (half sz : Int) := by
  unfold InRange RATIO_MIN RATIO_MAX
  omega

/-- The assertions of `ratio_checked_multiply` hold exactly when the product of the
magnitudes fits below `RATIO_MAX`. -/
theorem mul_asserts_iff (sz : Nat) (hsz : 0 < sz) (a b : Int)
    (ha : InRange sz a) (hb : InRange sz b) :
    mul_asserts sz a b = true ↔ |a| * |b| ≤ RATIO_MAX sz := by
  rw [inRange_iff] at ha hb
  have hH := half_pos sz
  have h2H := two_half sz hsz
  have hck := pow_half sz hsz
  have hkpos : (0 : Int) < 2 ^ (sz * 4 - 1) := by positivity
  generalize (2 : Int) ^ (sz * 4 - 1) = k at *
  generalize hc : (2 : Int) ^ (sz * 4) = c at *
  have hHk : (half sz : Int) = c * k := by
    have : 2 * (half sz : Int) = 2 * (c * k) := by rw [h2H, hck]; ring
    omega
  have hcc : c * c = 2 * (half sz : Int) := h2H.symm
  have hA := toU_abs sz a ha.1 ha.2
  have hB := toU_abs sz b hb.1 hb.2
  have hkk : 0 < k * k := mul_pos hkpos hkpos
  have hCu : toU sz c = c := by
    apply toU_eq
    · omega
    · have : c * 1 ≤ c * k := mul_le_mul_of_nonneg_left (by omega) (by omega)
      omega
  have hMu : toU sz (RATIO_MAX sz) = c * k - 1 := by
    unfold RATIO_MAX
    rw [toU_eq sz _ (by omega) (by omega), hHk]
  have ha0 := abs_nonneg a
  have hb0 := abs_nonneg b
  have haH : |a| ≤ k * c := by
    have := abs_le.2 ⟨ha.1, ha.2.le⟩
    rw [hHk] at this
    linarith
  have hbH : |b| ≤ k * c := by
    have := abs_le.2 ⟨hb.1, hb.2.le⟩
    rw [hHk] at this
    linarith
  have hcpos : 0 < c := by omega
  have key := split_mul_iff c k (|a| % c) (|a| / c) (|b| % c) (|b| / c) hkpos hck
    (Int.emod_nonneg _ hcpos.ne') (Int.emod_lt_of_pos _ hcpos)
    (Int.ediv_nonneg ha0 hcpos.le) (Int.ediv_le_of_le_mul hcpos haH)
    (Int.emod_nonneg _ hcpos.ne') (Int.emod_lt_of_pos _ hcpos)
    (Int.ediv_nonneg hb0 hcpos.le) (Int.ediv_le_of_le_mul hcpos hbH)
  rw [show c * (|a| / c) + |a| % c = |a| by rw [add_comm]; exact Int.emod_add_ediv _ _,
    show c * (|b| / c) + |b| % c = |b| by rw [add_comm]; exact Int.emod_add_ediv _ _] at key
  have hMax : RATIO_MAX sz = c * k - 1 := by unfold RATIO_MAX; rw [hHk]
  rw [hMax, ← key]
  simp only [mul_asserts, Bool.and_eq_true, decide_eq_true_eq, hA, hB, hc, hCu, hMu]
  have hm : (c * k - 1) % (c * c) = c * k - 1 :=
    Int.emod_eq_of_lt (by omega) (by omega)
  simp only [toU, ← hcc, and_assoc, hm]

/-- On the domain `abs<a>` overflows for `RATIO_MIN` only. -/
theorem abs_overflows_iff (sz : Nat) (a : Int) (ha : InRange sz a) :
    abs_overflows sz a = true ↔ a = RATIO_MIN sz := by
  rw [inRange_iff] at ha
  have hH := half_pos sz
  unfold abs_overflows RATIO_MIN
  rw [decide_eq_true_eq]
  constructor
  · rintro ⟨hneg, hw⟩
    by_contra hne
    exact hw (wrap_eq sz _ (by omega) (by omega))
  · intro h
    subst h
    refine ⟨by omega, ?_⟩
    rw [wrap_eq_sub sz _ (by omega) (by omega)]
    omega

theorem abs_overflows_false (sz : Nat) (a : Int) (ha : InRange sz a) (hne : a ≠ RATIO_MIN sz) :
    abs_overflows sz a = false := by
  cases h : abs_overflows sz a
  · rfl
  · exact absurd ((abs_overflows_iff sz a ha).1 h) hne

theorem gcd_overflows_false (sz : Nat) (a b : Int) (ha : InRange sz a) (hb : InRange sz b)
    (hna : a ≠ RATIO_MIN sz) (hnb : b ≠ RATIO_MIN sz) : gcd_overflows sz a b = false := by
  unfold gcd_overflows
  rw [abs_overflows_false sz a ha hna, abs_overflows_false sz b hb hnb]
  rfl

/-- Complete description of `ratio_checked_multiply` on the domain: an operand
`RATIO_MIN` is refused, otherwise the product of the magnitudes decides. -/
theorem ratio_checked_multiply_eq (sz : Nat) (hsz : 0 < sz) (a b : Int)
    (ha : InRange sz a) (hb : InRange sz b) :
    ratio_checked_multiply sz a b
      = if a ≠ RATIO_MIN sz ∧ b ≠ RATIO_MIN sz ∧ |a| * |b| ≤ RATIO_MAX sz then .ok (a * b)
        else .error .MulOverflow := by
  unfold ratio_checked_multiply
  by_cases hma : a = RATIO_MIN sz
  · have hov : abs_overflows sz a = true := (abs_overflows_iff sz a ha).2 hma
    have hn : ¬ (a ≠ RATIO_MIN sz ∧ b ≠ RATIO_MIN sz ∧ |a| * |b| ≤ RATIO_MAX sz) :=
      fun h => h.1 hma
    rw [hov, if_neg hn, Bool.true_or, if_pos rfl]
  by_cases hmb : b = RATIO_MIN sz
  · have hov : abs_overflows sz b = true := (abs_overflows_iff sz b hb).2 hmb
    have hn : ¬ (a ≠ RATIO_MIN sz ∧ b ≠ RATIO_MIN sz ∧ |a| * |b| ≤ RATIO_MAX sz) :=
      fun h => h.2.1 hmb
    rw [hov, if_neg hn, Bool.or_true, if_pos rfl]
  rw [abs_overflows_false sz a ha hma, abs_overflows_false sz b hb hmb]
  simp only [Bool.or_self, Bool.false_eq_true, if_false]
  by_cases h : |a| * |b| ≤ RATIO_MAX sz
  · rw [if_pos ((mul_asserts_iff sz hsz a b ha hb).2 h), if_pos ⟨hma, hmb, h⟩]
    have hab : |a * b| ≤ RATIO_MAX sz := by rw [abs_mul]; exact h
    unfold RATIO_MAX at hab
    have := abs_le.1 hab
    rw [wrap_eq sz _ (by omega) (by omega)]
  · rw [if_neg (fun hm => h ((mul_asserts_iff sz hsz a b ha hb).1 hm)),
      if_neg (fun hm => h hm.2.2)]

/-- Where no operand `RATIO_MIN` meets an operand zero, the product of the magnitudes
alone decides: `RATIO_MIN` times a non-zero value exceeds `RATIO_MAX`. -/
theorem ratio_checked_multiply_eq_abs (sz : Nat) (hsz : 0 < sz) (a b : Int)
    (ha : InRange sz a) (hb : InRange sz b)
    (hab : a = RATIO_MIN sz → b ≠ 0) (hba : b = RATIO_MIN sz → a ≠ 0) :
    ratio_checked_multiply sz a b
      = if |a| * |b| ≤ RATIO_MAX sz then .ok (a * b) else .error .MulOverflow := by
  rw [ratio_checked_multiply_eq sz hsz a b ha hb]
  have hH := half_pos sz
  by_cases h : |a| * |b| ≤ RATIO_MAX sz
  · have hma : a ≠ RATIO_MIN sz := by
      intro hm
      have hb0 : 1 ≤ |b| := Int.one_le_abs (hab hm)
      have haH : |a| = (half sz : Int) := by
        rw [hm]; unfold RATIO_MIN; rw [abs_neg, abs_of_pos hH]
      have : |a| * 1 ≤ |a| * |b| := mul_le_mul_of_nonneg_left hb0 (abs_nonneg a)
      unfold RATIO_MAX at h
      omega
    have hmb : b ≠ RATIO_MIN sz := by
      intro hm
      have ha0 : 1 ≤ |a| := Int.one_le_abs (hba hm)
      have hbH : |b| = (half sz : Int) := by
        rw [hm]; unfold RATIO_MIN; rw [abs_neg, abs_of_pos hH]
      have : 1 * |b| ≤ |a| * |b| := mul_le_mul_of_nonneg_right ha0 (abs_nonneg b)
      unfold RATIO_MAX at h
      omega
    rw [if_pos ⟨hma, hmb, h⟩, if_pos h]
  · rw [if_neg (fun hm => h hm.2.2), if_neg h]

/-! ## The Euclidean recursion -/

theorem natAbs_tmod (a b : Int) : (Int.tmod a b).natAbs = a.natAbs % b.natAbs := by
  cases a <;> cases b <;> simp [Int.tmod, Int.natAbs_neg] <;> rfl

/-- With enough instantiation depth `gcd_impl` returns a value whose magnitude is the
greatest common divisor; the value is positive when both arguments are non-negative. -/
theorem gcd_impl_spec : ∀ (depth : Nat) (a b : Int), b.natAbs < depth → (a ≠ 0 ∨ b ≠ 0) →
    ∃ g, gcd_impl depth a b = .ok g ∧ g.natAbs = Int.gcd a b ∧ (0 ≤ a → 0 ≤ b → 0 < g) := by
  intro depth
  induction depth with
  | zero => intro a b h; omega
  | succ n ih =>
    intro a b hdepth hne
    unfold gcd_impl
    by_cases hb : b = 0
    · subst hb
      have ha : a ≠ 0 := by simpa using hne
      refine ⟨a, by simp [ha], by simp, fun h _ => by omega⟩
    · by_cases ha : a = 0
      · subst ha
        refine ⟨b, by simp [hb], by simp, fun _ h => by omega⟩
      · rw [if_neg hb, if_neg ha]
        have hlt : (Int.tmod a b).natAbs < b.natAbs := by
          rw [natAbs_tmod]
          exact Nat.mod_lt _ (by omega)
        obtain ⟨g, hg, hgcd, hpos⟩ := ih b (Int.tmod a b) (by omega) (Or.inl hb)
        refine ⟨g, hg, ?_, fun h1 h2 => hpos h2 (Int.tmod_nonneg b h1)⟩
        rw [hgcd]
        unfold Int.gcd
        rw [natAbs_tmod, Nat.gcd_comm a.natAbs, Nat.gcd_rec b.natAbs a.natAbs, Nat.gcd_comm]

theorem natAbs_abs_eq (sz : Nat) (a : Int) (ha : InRange sz a) : (abs sz a).natAbs = a.natAbs := by
  rw [inRange_iff] at ha
  by_cases hm : a = -(half sz : Int)
  · rw [hm, abs_min]
  · rw [abs_eq sz a (by omega) ha.2, Int.natAbs_abs]

/-- `gcd<a, b>` on the domain, `a` and `b` not both zero: the instantiation succeeds,
the magnitude of its value is the greatest common divisor, and the value is positive
when neither argument is `RATIO_MIN`. -/
theorem gcd_spec (sz : Nat) (a b : Int) (ha : InRange sz a) (hb : InRange sz b)
    (hne : a ≠ 0 ∨ b ≠ 0) :
    ∃ g, gcd sz a b = .ok g ∧ g.natAbs = Int.gcd a b ∧
      (a ≠ RATIO_MIN sz → b ≠ RATIO_MIN sz → 0 < g) := by
  have hna := natAbs_abs_eq sz a ha
  have hnb := natAbs_abs_eq sz b hb
  have hne2 : abs sz a ≠ 0 ∨ abs sz b ≠ 0 := by
    rcases hne with h | h
    · left; intro h0; rw [h0] at hna; simp at hna; exact h (Int.natAbs_eq_zero.1 hna.symm)
    · right; intro h0; rw [h0] at hnb; simp at hnb; exact h (Int.natAbs_eq_zero.1 hnb.symm)
  obtain ⟨g, hg, hgcd, hpos⟩ := gcd_impl_spec ((abs sz b).natAbs + 1) (abs sz a) (abs sz b)
    (by omega) hne2
  refine ⟨g, hg, ?_, ?_⟩
  · rw [hgcd]; unfold Int.gcd; rw [hna, hnb]
  · intro h1 h2
    rw [inRange_iff] at ha hb
    unfold RATIO_MIN at h1 h2
    apply hpos
    · rw [abs_eq sz a (by omega) ha.2]; exact abs_nonneg a
    · rw [abs_eq sz b (by omega) hb.2]; exact abs_nonneg b

theorem gcd_value_dvd (a b g : Int) (h : g.natAbs = Int.gcd a b) : g ∣ a ∧ g ∣ b := by
  constructor
  · rw [← Int.natAbs_dvd, h]; exact Int.gcd_dvd_left
  · rw [← Int.natAbs_dvd, h]; exact Int.gcd_dvd_right

theorem gcd_value_ne_zero (a b g : Int) (h : g.natAbs = Int.gcd a b) (hne : a ≠ 0 ∨ b ≠ 0) :
    g ≠ 0 := by
  intro h0
  rw [h0] at h
  have : Int.gcd a b = 0 := by simpa using h.symm
  rw [Int.gcd_eq_zero_iff] at this
  rcases hne with h1 | h1
  · exact h1 this.1
  · exact h1 this.2

/-! ## Division by a gcd value and the normalisation of `ratio` -/

/-- Division of a domain value by a non-zero divisor of it: the truncated quotient is
exact, and it is the `ratio_t` result unless the division is `RATIO_MIN / -1`, which
overflows back to `RATIO_MIN`. -/
theorem sdiv_cases (sz : Nat) (a g : Int) (ha : InRange sz a) (hdvd : g ∣ a) (hg : g ≠ 0) :
    Int.tdiv a g * g = a ∧
      ((sdiv sz a g = Int.tdiv a g ∧ |Int.tdiv a g| ≤ |a| ∧ InRange sz (sdiv sz a g)) ∨
        (a = RATIO_MIN sz ∧ g = -1 ∧ sdiv sz a g = RATIO_MIN sz)) := by
  have hq : Int.tdiv a g * g = a := Int.tdiv_mul_cancel hdvd
  refine ⟨hq, ?_⟩
  rw [inRange_iff] at ha
  have hH := half_pos sz
  unfold sdiv
  generalize Int.tdiv a g = q at *
  have hg1 : 1 ≤ |g| := Int.one_le_abs hg
  have habs : |a| = |q| * |g| := by rw [← hq, abs_mul]
  have hq0 := abs_nonneg q
  have hqa : |q| ≤ |a| := by
    rw [habs]
    calc |q| = |q| * 1 := (mul_one _).symm
      _ ≤ |q| * |g| := mul_le_mul_of_nonneg_left hg1 hq0
  have haH : |a| ≤ (half sz : Int) := abs_le.2 ⟨ha.1, ha.2.le⟩
  have hqH := abs_le.1 (le_trans hqa haH)
  by_cases hqe : q = (half sz : Int)
  · right
    have hgle : |g| ≤ 1 := by
      by_contra hgt
      have h2 : (2 : Int) ≤ |g| := by omega
      have : |q| * 2 ≤ |q| * |g| := mul_le_mul_of_nonneg_left h2 hq0
      rw [hqe, abs_of_pos hH] at this habs
      omega
    have hg' : g = 1 ∨ g = -1 := by
      have := abs_le.1 hgle
      omega
    rcases hg' with h1 | h1
    · rw [h1, hqe] at hq; omega
    · rw [h1, hqe] at hq
      refine ⟨by unfold RATIO_MIN; omega, h1, ?_⟩
      unfold RATIO_MIN
      rw [hqe, wrap_eq_sub sz _ (by omega) (by omega)]
      ring
  · left
    have hw : wrap sz q = q := wrap_eq sz q hqH.1 (by omega)
    refine ⟨hw, hqa, ?_⟩
    rw [hw, inRange_iff]
    exact ⟨hqH.1, by omega⟩

theorem sign_mul_self (D : Int) : D * sign D = |D| := by
  unfold sign
  split
  · rw [abs_of_neg (by assumption)]; ring
  · rw [abs_of_nonneg (by omega)]; ring

/-- Away from `RATIO_MIN` the class template computes the canonical form exactly. -/
theorem ratio_eq (sz : Nat) (N D : Int)
    (hN : InRange sz N) (hD : InRange sz D) (hNm : N ≠ RATIO_MIN sz) (hDm : D ≠ RATIO_MIN sz)
    (hD0 : D ≠ 0) :
    ratio sz N D
      = .ok ⟨(N * sign D) / (Int.gcd N D : Int), |D| / (Int.gcd N D : Int)⟩ := by
  obtain ⟨g, hg, hgcd, hpos⟩ := gcd_spec sz N D hN hD (Or.inr hD0)
  have hgpos := hpos hNm hDm
  have hgG : g = (Int.gcd N D : Int) := by
    rw [← hgcd]
    exact (Int.natAbs_of_nonneg hgpos.le).symm
  have hdvd := gcd_value_dvd N D g hgcd
  have hHp := half_pos sz
  have hNr := (inRange_iff sz N).1 hN
  have hDr := (inRange_iff sz D).1 hD
  unfold RATIO_MIN at hNm hDm
  have hsN : wrap sz (N * sign D) = N * sign D := by
    apply wrap_eq <;> unfold sign <;> split <;> omega
  have hsNr : InRange sz (N * sign D) := by
    rw [inRange_iff]; unfold sign; split <;> omega
  have hsNm : N * sign D ≠ RATIO_MIN sz := by
    unfold RATIO_MIN sign; split <;> omega
  have hsdvd : g ∣ N * sign D := Dvd.dvd.mul_right hdvd.1 _
  have hab : abs sz D = |D| := abs_eq sz D (by omega) hDr.2
  have habr : InRange sz |D| := by
    rw [inRange_iff]
    have := abs_lt.2 (show -(half sz : Int) < D ∧ D < (half sz : Int) from ⟨by omega, hDr.2⟩)
    have := abs_nonneg D
    omega
  have habm : |D| ≠ RATIO_MIN sz := by
    unfold RATIO_MIN
    have := abs_nonneg D
    omega
  have habdvd : g ∣ |D| := (dvd_abs g D).2 hdvd.2
  have h1 : sdiv sz (N * sign D) g = (N * sign D) / g := by
    rcases (sdiv_cases sz _ g hsNr hsdvd hgpos.ne').2 with h | h
    · rw [h.1, Int.tdiv_eq_ediv_of_dvd hsdvd]
    · exact absurd h.1 hsNm
  have h2 : sdiv sz |D| g = |D| / g := by
    rcases (sdiv_cases sz _ g habr habdvd hgpos.ne').2 with h | h
    · rw [h.1, Int.tdiv_eq_ediv_of_dvd habdvd]
    · exact absurd h.1 habm
  rw [hgG] at h1 h2
  unfold ratio
  rw [if_neg hD0, if_neg (not_not.2 ⟨hN, hD⟩), hg]
  simp only [Except.bind, bind, pure, Except.pure, hsN, hab, h1, h2, hgG]

theorem gcd_sign_abs (N D : Int) : Int.gcd (N * sign D) |D| = Int.gcd N D := by
  unfold Int.gcd
  rw [Int.natAbs_mul, Int.natAbs_abs]
  have : (sign D).natAbs = 1 := by unfold sign; split <;> rfl
  rw [this, Nat.mul_one]

/-- Away from `RATIO_MIN` a constructed value is canonical and denotes `N / D`. -/
theorem ratio_ok_props (sz : Nat) (N D : Int)
    (hN : InRange sz N) (hD : InRange sz D) (hNm : N ≠ RATIO_MIN sz) (hDm : D ≠ RATIO_MIN sz)
    (hD0 : D ≠ 0) (R : RationalValue) (hR : ratio sz N D = .ok R) :
    R.num * D = N * R.den ∧ Canonical sz R := by
  rw [ratio_eq sz N D hN hD hNm hDm hD0] at hR
  have hR' := (Except.ok.inj hR).symm
  have hG0 : 0 < Int.gcd N D := Int.gcd_pos_of_ne_zero_right N hD0
  have hGpos : (0 : Int) < (Int.gcd N D : Int) := by exact_mod_cast hG0
  have hd1 : (Int.gcd N D : Int) ∣ N * sign D := Dvd.dvd.mul_right Int.gcd_dvd_left _
  have hd2 : (Int.gcd N D : Int) ∣ |D| := (dvd_abs _ D).2 Int.gcd_dvd_right
  have hnum : R.num * (Int.gcd N D : Int) = N * sign D := by
    rw [hR']; exact Int.ediv_mul_cancel hd1
  have hden : R.den * (Int.gcd N D : Int) = |D| := by
    rw [hR']; exact Int.ediv_mul_cancel hd2
  have hDpos : 0 < |D| := abs_pos.2 hD0
  have hdenpos : 0 < R.den := by
    rw [hR']; exact Int.ediv_pos_of_pos_of_dvd hDpos hGpos.le hd2
  have hHp := half_pos sz
  have hNr := (inRange_iff sz N).1 hN
  have hDr := (inRange_iff sz D).1 hD
  unfold RATIO_MIN at hNm hDm
  refine ⟨?_, hdenpos, ?_, ?_, ?_⟩
  · have h : R.num * D * (Int.gcd N D : Int) = N * R.den * (Int.gcd N D : Int) := by
      calc R.num * D * (Int.gcd N D : Int) = R.num * (Int.gcd N D : Int) * D := by ring
        _ = N * (D * sign D) := by rw [hnum]; ring
        _ = N * (R.den * (Int.gcd N D : Int)) := by rw [sign_mul_self, hden]
        _ = N * R.den * (Int.gcd N D : Int) := by ring
    exact mul_right_cancel₀ hGpos.ne' h
  · have := Int.gcd_div_gcd_div_gcd (i := N * sign D) (j := |D|)
      (by rw [gcd_sign_abs]; exact hG0)
    rw [gcd_sign_abs] at this
    rw [hR']; exact this
  · have hle : |R.num| ≤ |N| := by
      have h1 : |R.num| * (Int.gcd N D : Int) = |N| := by
        have := congrArg (fun x : Int => |x|) hnum
        simp only [abs_mul] at this
        rw [abs_of_pos hGpos] at this
        rw [this]
        unfold sign; split <;> simp
      calc |R.num| = |R.num| * 1 := (mul_one _).symm
        _ ≤ |R.num| * (Int.gcd N D : Int) :=
            mul_le_mul_of_nonneg_left (by omega) (abs_nonneg _)
        _ = |N| := h1
    have hNa : |N| < (half sz : Int) := abs_lt.2 ⟨by omega, hNr.2⟩
    have := abs_lt.1 (lt_of_le_of_lt hle hNa)
    rw [inRange_iff]; omega
  · have hle : R.den ≤ |D| := by
      calc R.den = R.den * 1 := (mul_one _).symm
        _ ≤ R.den * (Int.gcd N D : Int) := mul_le_mul_of_nonneg_left (by omega) hdenpos.le
        _ = |D| := hden
    have hDa : |D| < (half sz : Int) := abs_lt.2 ⟨by omega, hDr.2⟩
    rw [inRange_iff]; omega

theorem sdiv_inRange (sz : Nat) (a g : Int) : InRange sz (sdiv sz a g) := by
  rw [inRange_iff]
  exact ⟨wrap_lower sz _, wrap_upper sz _⟩

theorem ratio_checked_multiply_ok (sz : Nat) (hsz : 0 < sz) (a b v : Int)
    (ha : InRange sz a) (hb : InRange sz b) (h : ratio_checked_multiply sz a b = .ok v) :
    v = a * b ∧ |a| * |b| ≤ RATIO_MAX sz := by
  rw [ratio_checked_multiply_eq sz hsz a b ha hb] at h
  split at h
  · rename_i hc
    exact ⟨(Except.ok.inj h).symm, hc.2.2⟩
  · cases h

/-- A product accepted by `ratio_checked_multiply` lies in the domain, away from
`RATIO_MIN`. -/
theorem product_inRange (sz : Nat) (a b : Int) (h : |a| * |b| ≤ RATIO_MAX sz) :
    InRange sz (a * b) ∧ a * b ≠ RATIO_MIN sz := by
  have hab : |a * b| ≤ RATIO_MAX sz := by rw [abs_mul]; exact h
  unfold RATIO_MAX at hab
  have := abs_le.1 hab
  rw [inRange_iff]
  unfold RATIO_MIN
  omega

theorem abs_le_of_mul_le (sz : Nat) (a b : Int) (hb : b ≠ 0) (h : |a| * |b| ≤ RATIO_MAX sz) :
    |a| ≤ RATIO_MAX sz := by
  have hb1 : 1 ≤ |b| := Int.one_le_abs hb
  calc |a| = |a| * 1 := (mul_one _).symm
    _ ≤ |a| * |b| := mul_le_mul_of_nonneg_left hb1 (abs_nonneg a)
    _ ≤ RATIO_MAX sz := h

/-- The quotient of a numerator by a gcd value, as used by `ratio_multiply`: either it
is exact, or it is the overflowed `RATIO_MIN / -1`, which no accepted product with a
non-zero factor can contain. -/
theorem sdiv_exact_of_mul (sz : Nat) (a g y : Int) (ha : InRange sz a) (hdvd : g ∣ a)
    (hg : g ≠ 0) (hy : y ≠ 0) (h : |sdiv sz a g| * |y| ≤ RATIO_MAX sz) :
    sdiv sz a g * g = a := by
  obtain ⟨hq, hc | hc⟩ := sdiv_cases sz a g ha hdvd hg
  · rw [hc.1]; exact hq
  · exfalso
    have := abs_le_of_mul_le sz _ y hy h
    rw [hc.2.2] at this
    unfold RATIO_MIN RATIO_MAX at this
    have hH := half_pos sz
    rw [abs_of_neg (by omega)] at this
    omega

theorem sdiv_eq_zero (sz : Nat) (a g : Int) (ha : InRange sz a) (hdvd : g ∣ a)
    (hg : g ≠ 0) (h : sdiv sz a g = 0) : a = 0 := by
  obtain ⟨hq, hc | hc⟩ := sdiv_cases sz a g ha hdvd hg
  · rw [← hq, ← hc.1, h, zero_mul]
  · exfalso
    have hH := half_pos sz
    rw [hc.2.2] at h
    unfold RATIO_MIN at h
    omega

/-- No value comes out of `ratio_multiply` when `gcd1` or `gcd2` is computed from an
overflowed `abs`. -/
theorem ratio_multiply_overflowed (sz : Nat) (R1 R2 : RationalValue)
    (h : (gcd_overflows sz R1.num R2.den || gcd_overflows sz R2.num R1.den) = true)
    (R : RationalValue) : ratio_multiply sz R1 R2 ≠ .ok R := by
  intro hR
  unfold ratio_multiply at hR
  cases hg1 : gcd sz R1.num R2.den with
  | error e => rw [hg1] at hR; cases hR
  | ok g1 =>
    cases hg2 : gcd sz R2.num R1.den with
    | error e => rw [hg1, hg2] at hR; cases hR
    | ok g2 =>
      rw [hg1, hg2] at hR
      simp only [bind, Except.bind, h, if_true] at hR
      cases hR

/-- Helper for the multiplication of canonical values: the accepted result is canonical
and denotes the exact product. -/
theorem ratio_multiply_props (sz : Nat) (hsz : 0 < sz) (R1 R2 R : RationalValue)
    (h1 : Canonical sz R1) (h2 : Canonical sz R2) (hR : ratio_multiply sz R1 R2 = .ok R) :
    R.num * (R1.den * R2.den) = (R1.num * R2.num) * R.den ∧ Canonical sz R := by
  obtain ⟨hd1, -, hn1r, hd1r⟩ := h1
  obtain ⟨hd2, -, hn2r, hd2r⟩ := h2
  obtain ⟨g1, hg1, hgcd1, -⟩ := gcd_spec sz R1.num R2.den hn1r hd2r (Or.inr hd2.ne')
  obtain ⟨g2, hg2, hgcd2, -⟩ := gcd_spec sz R2.num R1.den hn2r hd1r (Or.inr hd1.ne')
  have hg1n := gcd_value_ne_zero _ _ g1 hgcd1 (Or.inr hd2.ne')
  have hg2n := gcd_value_ne_zero _ _ g2 hgcd2 (Or.inr hd1.ne')
  have hdv1 := gcd_value_dvd _ _ g1 hgcd1
  have hdv2 := gcd_value_dvd _ _ g2 hgcd2
  have hH := half_pos sz
  unfold ratio_multiply at hR
  rw [hg1, hg2] at hR
  simp only [bind, Except.bind] at hR
  split at hR
  · cases hR
  cases hn : ratio_checked_multiply sz (sdiv sz R1.num g1) (sdiv sz R2.num g2) with
  | error e => rw [hn] at hR; cases hR
  | ok n =>
    cases hd : ratio_checked_multiply sz (sdiv sz R1.den g2) (sdiv sz R2.den g1) with
    | error e => rw [hn, hd] at hR; cases hR
    | ok d =>
      rw [hn, hd] at hR
      simp only at hR
      obtain ⟨hnv, hnle⟩ := ratio_checked_multiply_ok sz hsz _ _ n
        (sdiv_inRange sz _ _) (sdiv_inRange sz _ _) hn
      obtain ⟨hdv, hdle⟩ := ratio_checked_multiply_ok sz hsz _ _ d
        (sdiv_inRange sz _ _) (sdiv_inRange sz _ _) hd
      -- the denominators divide exactly
      have hy1 : sdiv sz R1.den g2 * g2 = R1.den := by
        obtain ⟨hq, hc | hc⟩ := sdiv_cases sz R1.den g2 hd1r hdv2.2 hg2n
        · rw [hc.1]; exact hq
        · exfalso; have := hc.1; unfold RATIO_MIN at this; omega
      have hy2 : sdiv sz R2.den g1 * g1 = R2.den := by
        obtain ⟨hq, hc | hc⟩ := sdiv_cases sz R2.den g1 hd2r hdv1.2 hg1n
        · rw [hc.1]; exact hq
        · exfalso; have := hc.1; unfold RATIO_MIN at this; omega
      have hy1n : sdiv sz R1.den g2 ≠ 0 := by
        intro h0; rw [h0, zero_mul] at hy1; omega
      have hy2n : sdiv sz R2.den g1 ≠ 0 := by
        intro h0; rw [h0, zero_mul] at hy2; omega
      have hdn : d ≠ 0 := by rw [hdv]; exact mul_ne_zero hy1n hy2n
      obtain ⟨hnr, hnm⟩ := product_inRange sz _ _ hnle
      obtain ⟨hdr, hdm⟩ := product_inRange sz _ _ hdle
      rw [← hnv] at hnr hnm
      rw [← hdv] at hdr hdm
      obtain ⟨hden, hcan⟩ := ratio_ok_props sz n d hnr hdr hnm hdm hdn R hR
      refine ⟨?_, hcan⟩
      by_cases hz : sdiv sz R1.num g1 = 0 ∨ sdiv sz R2.num g2 = 0
      · have hn0 : n = 0 := by
          rcases hz with h | h <;> rw [hnv, h] <;> simp
        have hnum0 : R.num = 0 := by
          rw [hn0, zero_mul] at hden
          rcases mul_eq_zero.1 hden with h | h
          · exact h
          · exact absurd h hdn
        have hprod : R1.num * R2.num = 0 := by
          rcases hz with h | h
          · rw [sdiv_eq_zero sz _ g1 hn1r hdv1.1 hg1n h, zero_mul]
          · rw [sdiv_eq_zero sz _ g2 hn2r hdv2.1 hg2n h, mul_zero]
        rw [hnum0, hprod]; ring
      · push_neg at hz
        have hx1 := sdiv_exact_of_mul sz R1.num g1 _ hn1r hdv1.1 hg1n hz.2 hnle
        have hx2 := sdiv_exact_of_mul sz R2.num g2 _ hn2r hdv2.1 hg2n hz.1
          (by rw [mul_comm]; exact hnle)
        calc R.num * (R1.den * R2.den)
            = R.num * (sdiv sz R1.den g2 * g2 * (sdiv sz R2.den g1 * g1)) := by rw [hy1, hy2]
          _ = R.num * d * (g1 * g2) := by rw [hdv]; ring
          _ = n * R.den * (g1 * g2) := by rw [hden]
          _ = (sdiv sz R1.num g1 * g1) * (sdiv sz R2.num g2 * g2) * R.den := by rw [hnv]; ring
          _ = (R1.num * R2.num) * R.den := by rw [hx1, hx2]

theorem ratio_multiply_denotes (sz : Nat) (hsz : 0 < sz) (R1 R2 R : RationalValue)
    (h1 : Canonical sz R1) (h2 : Canonical sz R2) (hR : ratio_multiply sz R1 R2 = .ok R) :
    R.num * (R1.den * R2.den) = (R1.num * R2.num) * R.den :=
  (ratio_multiply_props sz hsz R1 R2 R h1 h2 hR).1

/-! ## The sign-case checks of addition -/

theorem wrap_cases (sz : Nat) (t : Int) (h1 : -3 * (half sz : Int) ≤ t)
    (h2 : t < 3 * (half sz : Int)) :
    (t < -(half sz : Int) ∧ wrap sz t = t + 2 * (half sz : Int)) ∨
      (-(half sz : Int) ≤ t ∧ t < (half sz : Int) ∧ wrap sz t = t) ∨
      ((half sz : Int) ≤ t ∧ wrap sz t = t - 2 * (half sz : Int)) := by
  by_cases ha : t < -(half sz : Int)
  · exact Or.inl ⟨ha, wrap_eq_add sz t h1 ha⟩
  · by_cases hb : t < (half sz : Int)
    · exact Or.inr (Or.inl ⟨by omega, hb, wrap_eq sz t (by omega) hb⟩)
    · exact Or.inr (Or.inr ⟨by omega, wrap_eq_sub sz t (by omega) h2⟩)

theorem abs_cases (sz : Nat) (a : Int) (h1 : -(half sz : Int) ≤ a) (h2 : a < (half sz : Int)) :
    (0 ≤ a ∧ abs sz a = a) ∨ (a < 0 ∧ -(half sz : Int) < a ∧ abs sz a = -a) ∨
      (a = -(half sz : Int) ∧ abs sz a = -(half sz : Int)) := by
  have hH := half_pos sz
  by_cases h0 : 0 ≤ a
  · left; exact ⟨h0, by rw [abs_eq sz a (by omega) h2, abs_of_nonneg h0]⟩
  · by_cases hm : a = -(half sz : Int)
    · right; right; exact ⟨hm, by rw [hm, abs_min]⟩
    · right; left
      exact ⟨by omega, by omega, by rw [abs_eq sz a (by omega) h2, abs_of_neg (by omega)]⟩

/-- The assertion of `ratio_checked_add` on the domain: it holds exactly when the exact
sum is in the domain, except that the pairs `(RATIO_MIN, 0)` and `(0, RATIO_MIN)` are
refused. -/
theorem check_add_flows_iff (sz : Nat) (a b : Int) (ha : InRange sz a) (hb : InRange sz b) :
    check_add_flows sz a b = true ↔
      InRange sz (a + b) ∧ ¬ (a = RATIO_MIN sz ∧ b = 0) ∧ ¬ (a = 0 ∧ b = RATIO_MIN sz) := by
  rw [inRange_iff] at ha hb ⊢
  have hH := half_pos sz
  have hA := abs_cases sz a ha.1 ha.2
  have hB := abs_cases sz b hb.1 hb.2
  have w1 := wrap_cases sz (RATIO_MIN sz + abs sz a) (by unfold RATIO_MIN; omega)
    (by unfold RATIO_MIN; omega)
  have w2 := wrap_cases sz (RATIO_MIN sz + abs sz b) (by unfold RATIO_MIN; omega)
    (by unfold RATIO_MIN; omega)
  have w3 := wrap_cases sz (RATIO_MAX sz - abs sz b) (by unfold RATIO_MAX; omega)
    (by unfold RATIO_MAX; omega)
  unfold check_add_flows check_sub_underflow check_add_overflow_impl check_sub_underflow_impl
    is_negative
  unfold RATIO_MIN RATIO_MAX at *
  by_cases ha0 : a < 0 <;> by_cases hb0 : b < 0 <;>
    simp only [ha0, hb0, decide_True, decide_False, Bool.or_true, Bool.or_false, Bool.and_true,
      Bool.and_false, Bool.true_or, Bool.false_or, Bool.true_and, Bool.false_and, if_true,
      if_false, decide_eq_true_eq, Bool.false_eq_true] <;>
    omega

/-- An accepted `ratio_checked_add` returns the exact sum. -/
theorem ratio_checked_add_ok (sz : Nat) (a b v : Int) (ha : InRange sz a) (hb : InRange sz b)
    (h : ratio_checked_add sz a b = .ok v) : v = a + b ∧ InRange sz (a + b) := by
  unfold ratio_checked_add at h
  split at h
  · rename_i hc
    have hr := ((check_add_flows_iff sz a b ha hb).1 hc).1
    have hr' := (inRange_iff sz _).1 hr
    rw [wrap_eq sz _ hr'.1 hr'.2] at h
    exact ⟨(Except.ok.inj h).symm, hr⟩
  · cases h

/-- The assertion of `ratio_checked_sub` on the domain: a negative minuend with a
non-negative subtrahend is always accepted, two negative operands are accepted unless
the subtrahend is `RATIO_MIN`, and a non-negative minuend is accepted exactly when the
exact difference is at most `RATIO_MAX`. -/
theorem check_sub_flows_iff (sz : Nat) (a b : Int) (ha : InRange sz a) (hb : InRange sz b) :
    check_sub_flows sz a b = true ↔
      (a < 0 ∧ 0 ≤ b) ∨ (a < 0 ∧ b < 0 ∧ b ≠ RATIO_MIN sz) ∨ (0 ≤ a ∧ a - b ≤ RATIO_MAX sz) := by
  rw [inRange_iff] at ha hb
  have hH := half_pos sz
  have hA := abs_cases sz a ha.1 ha.2
  have hB := abs_cases sz b hb.1 hb.2
  have w1 := wrap_cases sz (RATIO_MIN sz + abs sz a) (by unfold RATIO_MIN; omega)
    (by unfold RATIO_MIN; omega)
  have w2 := wrap_cases sz (RATIO_MIN sz + abs sz b) (by unfold RATIO_MIN; omega)
    (by unfold RATIO_MIN; omega)
  have w3 := wrap_cases sz (RATIO_MAX sz - abs sz b) (by unfold RATIO_MAX; omega)
    (by unfold RATIO_MAX; omega)
  unfold check_sub_flows check_add_overflow_impl check_sub_underflow_impl is_negative
  unfold RATIO_MIN RATIO_MAX at *
  by_cases ha0 : a < 0 <;> by_cases hb0 : b < 0 <;>
    simp only [ha0, hb0, decide_True, decide_False, if_true, if_false, decide_eq_true_eq,
      Bool.false_eq_true, true_and, false_and, false_or, or_false] <;>
    omega

theorem gcd_impl_error : ∀ (depth : Nat) (a b : Int) (e : Error),
    gcd_impl depth a b = .error e → e = .AmbiguousSpecialization ∨ e = .InstantiationDepth := by
  intro depth
  induction depth with
  | zero =>
    intro a b e h
    unfold gcd_impl at h
    exact Or.inr (Except.error.inj h).symm
  | succ n ih =>
    intro a b e h
    unfold gcd_impl at h
    split at h
    · split at h
      · exact Or.inl (Except.error.inj h).symm
      · cases h
    · split at h
      · cases h
      · exact ih _ _ e h

/-! ## The claims -/

/-- C1 (evaluation at the failing input): in the 64-bit configuration `ratio<RATIO_MIN, 6>`
is instantiated without error, both arguments being in range, and its members are
`num = 2^62`, `den = -3`: the denominator is negative. -/
theorem ratio_min_six_negative_den :
    InRange 8 (RATIO_MIN 8) ∧ InRange 8 6 ∧
      ratio 8 (RATIO_MIN 8) 6 = .ok ⟨4611686018427387904, -3⟩ := by
  decide

/-- C2 (evaluation at the failing input): in the 64-bit configuration
`ratio<RATIO_MIN, -6>` has `num = 2^62` and `den = -3`, whereas `abs(D) / gcd` is `3`,
and the value does not denote `N / D`: `num * D` differs from `N * den`. -/
theorem ratio_min_neg_six_not_exact :
    InRange 8 (RATIO_MIN 8) ∧ InRange 8 (-6) ∧
      ratio 8 (RATIO_MIN 8) (-6) = .ok ⟨4611686018427387904, -3⟩ ∧
      (4611686018427387904 : Int) * (-6) ≠ RATIO_MIN 8 * (-3) ∧
      |(-6 : Int)| / (Int.gcd (RATIO_MIN 8) (-6) : Int) = 3 := by
  decide

/-- C3 (evaluation at the failing input): in the 32-bit configuration
`ratio<RATIO_MIN, 6>` is `2^30 / -3`, and constructing again from these members gives
`-2^30 / 3`, a different pair. -/
theorem ratio_renormalize_changes :
    InRange 4 (RATIO_MIN 4) ∧ InRange 4 6 ∧
      ratio 4 (RATIO_MIN 4) 6 = .ok ⟨1073741824, -3⟩ ∧
      ratio 4 1073741824 (-3) = .ok ⟨-1073741824, 3⟩ := by
  decide

/-- C4: constructing `ratio<N, D>` fails with "template argument D shall not be zero"
exactly when `D = 0`; in particular it does so for every `N`, zero included, and then
yields no value. -/
theorem ratio_zero_denominator_iff (sz : Nat) (N D : Int) :
    ratio sz N D = .error .ZeroDenominator ↔ D = 0 := by
  constructor
  · intro h
    by_contra hD
    unfold ratio at h
    rw [if_neg hD] at h
    split at h
    · cases h
    · cases hg : gcd sz N D with
      | error e =>
        rw [hg] at h
        have he : e = .ZeroDenominator := Except.error.inj h
        unfold gcd at hg
        rcases gcd_impl_error _ _ _ e hg with h' | h' <;> rw [h'] at he <;> cases he
      | ok g => rw [hg] at h; cases h
  · intro hD
    subst hD
    simp [ratio]

/-- C5 (evaluation at the failing input): in the 64-bit configuration
`ratio_checked_add<RATIO_MIN, 0>` trips "add overflow" although the exact sum
`RATIO_MIN + 0` lies in the domain. -/
theorem ratio_checked_add_min_zero :
    InRange 8 (RATIO_MIN 8) ∧ InRange 8 0 ∧ InRange 8 (RATIO_MIN 8 + 0) ∧
      ratio_checked_add 8 (RATIO_MIN 8) 0 = .error .AddOverflow := by
  decide

/-- C6 (evaluation at the failing input): in the 64-bit configuration
`ratio_checked_sub<-2, RATIO_MAX>` passes its assertion although the exact difference is
below `RATIO_MIN`, and its value is the wrapped `RATIO_MAX`. -/
theorem ratio_checked_sub_undetected :
    InRange 8 (-2) ∧ InRange 8 (RATIO_MAX 8) ∧ (-2 : Int) - RATIO_MAX 8 < RATIO_MIN 8 ∧
      ratio_checked_sub 8 (-2) (RATIO_MAX 8) = .ok (RATIO_MAX 8) := by
  decide

/-- C7 (evaluation at the failing input): in the 64-bit configuration the operands `0` and
`RATIO_MIN` lie in the domain and the exact product of their magnitudes is `0`, at most
`RATIO_MAX`, but `ratio_checked_multiply<0, RATIO_MIN>` has no value, and neither has
`ratio_checked_multiply<RATIO_MIN, 0>`: `abs<RATIO_MIN>` overflows and the assertions
read it. -/
theorem ratio_checked_multiply_zero_min :
    InRange 8 0 ∧ InRange 8 (RATIO_MIN 8) ∧ |(0 : Int)| * |RATIO_MIN 8| ≤ RATIO_MAX 8 ∧
      abs_overflows 8 (RATIO_MIN 8) = true ∧
      ratio_checked_multiply 8 0 (RATIO_MIN 8) = .error .MulOverflow ∧
      ratio_checked_multiply 8 (RATIO_MIN 8) 0 = .error .MulOverflow := by
  refine ⟨by decide, by decide, ?_, by decide, by decide, by decide⟩
  rw [abs_zero, zero_mul]
  decide

/-- C8 (evaluation at the failing input): in the 64-bit configuration the canonical values
`-RATIO_MAX / 5` and `-1 / 5` are added without error, the result is `RATIO_MIN / -5`, and
it does not denote the exact sum. -/
theorem ratio_add_min_numerator :
    Canonical 8 ⟨-RATIO_MAX 8, 5⟩ ∧ Canonical 8 ⟨-1, 5⟩ ∧
      ratio_add 8 ⟨-RATIO_MAX 8, 5⟩ ⟨-1, 5⟩ = .ok ⟨RATIO_MIN 8, -5⟩ ∧
      RATIO_MIN 8 * (5 * 5) ≠ (-RATIO_MAX 8 * 5 + -1 * 5) * -5 := by
  decide

/-- C9: for canonical `R1` and `R2`, whenever `ratio_multiply<R1, R2>` is instantiated
without error its members denote the exact product:
`num * (R1.den * R2.den) = (R1.num * R2.num) * den`. -/
theorem ratio_multiply_exact (sz : Nat) (hsz : 0 < sz) (R1 R2 R : RationalValue)
    (h1 : Canonical sz R1) (h2 : Canonical sz R2) (hR : ratio_multiply sz R1 R2 = .ok R) :
    R.num * (R1.den * R2.den) = (R1.num * R2.num) * R.den :=
  ratio_multiply_denotes sz hsz R1 R2 R h1 h2 hR

/-- A concrete instance in the 64-bit configuration: `2/3 * 3/4` gives `1/2`. -/
theorem ratio_multiply_exact_witness :
    (0 < 8 ∧ Canonical 8 ⟨2, 3⟩ ∧ Canonical 8 ⟨3, 4⟩ ∧
        ratio_multiply 8 ⟨2, 3⟩ ⟨3, 4⟩ = .ok ⟨1, 2⟩) ∧
      (1 : Int) * (3 * 4) = (2 * 3) * 2 :=
  ⟨⟨by decide, by decide, by decide, by decide⟩,
    ratio_multiply_exact 8 (by decide) ⟨2, 3⟩ ⟨3, 4⟩ ⟨1, 2⟩ (by decide) (by decide) (by decide)⟩

/-- C10 (evaluation at the failing input): in the 64-bit configuration subtracting the
canonical `1 / 5` from the canonical `-RATIO_MAX / 5` succeeds with `RATIO_MIN / -5`, which
does not denote the exact difference. -/
theorem ratio_subtract_min_numerator :
    Canonical 8 ⟨-RATIO_MAX 8, 5⟩ ∧ Canonical 8 ⟨1, 5⟩ ∧
      ratio_subtract 8 ⟨-RATIO_MAX 8, 5⟩ ⟨1, 5⟩ = .ok ⟨RATIO_MIN 8, -5⟩ ∧
      RATIO_MIN 8 * (5 * 5) ≠ (-RATIO_MAX 8 * 5 - 1 * 5) * -5 := by
  decide


/-! ## Propagation of failures -/

theorem bind_eq_ok {α β : Type} (x : Except Error α) (f : α → Except Error β) (r : β) :
    (x >>= f) = .ok r ↔ ∃ v, x = .ok v ∧ f v = .ok r := by
  cases x <;> simp [bind, Except.bind]

theorem bind_eq_error {α β : Type} (x : Except Error α) (f : α → Except Error β) (e : Error) :
    (x >>= f) = .error e ↔ x = .error e ∨ ∃ v, x = .ok v ∧ f v = .error e := by
  cases x <;> simp [bind, Except.bind]

theorem gcd_error (sz : Nat) (a b : Int) (e : Error) (h : gcd sz a b = .error e) :
    e = .AmbiguousSpecialization ∨ e = .InstantiationDepth :=
  gcd_impl_error _ _ _ e h

theorem ratio_error (sz : Nat) (N D : Int) (e : Error) (h : ratio sz N D = .error e) :
    e = .ZeroDenominator ∨ e = .OutOfRange ∨ e = .AmbiguousSpecialization
      ∨ e = .InstantiationDepth := by
  unfold ratio at h
  split at h
  · exact Or.inl (Except.error.inj h).symm
  · split at h
    · exact Or.inr (Or.inl (Except.error.inj h).symm)
    · rw [bind_eq_error] at h
      rcases h with h | ⟨g, -, h⟩
      · exact Or.inr (Or.inr (gcd_error sz N D e h))
      · cases h

theorem ratio_checked_multiply_error (sz : Nat) (a b : Int) (e : Error)
    (h : ratio_checked_multiply sz a b = .error e) : e = .MulOverflow := by
  unfold ratio_checked_multiply at h
  split at h
  · exact (Except.error.inj h).symm
  · split at h
    · cases h
    · exact (Except.error.inj h).symm

theorem ratio_checked_add_error (sz : Nat) (a b : Int) (e : Error)
    (h : ratio_checked_add sz a b = .error e) : e = .AddOverflow := by
  unfold ratio_checked_add at h
  split at h
  · cases h
  · exact (Except.error.inj h).symm

/-- The diagnostics `ratio_multiply` can end with. -/
theorem ratio_multiply_error (sz : Nat) (R1 R2 : RationalValue) (e : Error)
    (h : ratio_multiply sz R1 R2 = .error e) :
    e = .MulOverflow ∨ e = .ZeroDenominator ∨ e = .OutOfRange ∨ e = .AmbiguousSpecialization
      ∨ e = .InstantiationDepth := by
  unfold ratio_multiply at h
  rw [bind_eq_error] at h
  rcases h with h | ⟨g1, -, h⟩
  · exact Or.inr (Or.inr (Or.inr (gcd_error _ _ _ e h)))
  rw [bind_eq_error] at h
  rcases h with h | ⟨g2, -, h⟩
  · exact Or.inr (Or.inr (Or.inr (gcd_error _ _ _ e h)))
  split at h
  · exact Or.inl (Except.error.inj h).symm
  rw [bind_eq_error] at h
  rcases h with h | ⟨n, -, h⟩
  · exact Or.inl (ratio_checked_multiply_error _ _ _ e h)
  rw [bind_eq_error] at h
  rcases h with h | ⟨d, -, h⟩
  · exact Or.inl (ratio_checked_multiply_error _ _ _ e h)
  · exact Or.inr (ratio_error _ _ _ e h)

theorem wrap_zero (sz : Nat) : wrap sz 0 = 0 := by
  have := half_pos sz
  exact wrap_eq sz 0 (by omega) (by omega)

theorem one_lt_half (sz : Nat) (hsz : 0 < sz) : (1 : Int) < (half sz : Int) := by
  have h : 1 < half sz := by
    unfold half
    exact Nat.one_lt_two_pow (by omega)
  exact_mod_cast h

theorem wrap_one (sz : Nat) (hsz : 0 < sz) : wrap sz 1 = 1 := by
  have := one_lt_half sz hsz
  exact wrap_eq sz 1 (by omega) (by omega)

/-- `gcd<a, 1>` is `1` on the whole domain. -/
theorem gcd_one_right (sz : Nat) (a : Int) : gcd sz a 1 = .ok 1 := by
  have h1 : abs sz 1 = 1 := by unfold abs; simp
  unfold gcd
  rw [h1]
  show gcd_impl 2 (abs sz a) 1 = .ok 1
  unfold gcd_impl
  by_cases ha : abs sz a = 0
  · simp [ha]
  · simp [ha, gcd_impl]

/-- `ratio<n, 1>` has members `n` and `1` on the whole domain. -/
theorem ratio_one (sz : Nat) (hsz : 0 < sz) (n : Int) (hn : InRange sz n) :
    ratio sz n 1 = .ok ⟨n, 1⟩ := by
  have h1 := one_lt_half sz hsz
  have hr := (inRange_iff sz n).1 hn
  have h1r : InRange sz 1 := by rw [inRange_iff]; omega
  have habs : abs sz 1 = 1 := by unfold abs; simp
  have hs : sign 1 = 1 := by unfold sign; simp
  unfold ratio
  rw [if_neg (by omega), if_neg (not_not.2 ⟨hn, h1r⟩), gcd_one_right]
  simp only [bind, Except.bind, pure, Except.pure, sdiv, Int.tdiv_one, habs, hs, mul_one,
    wrap_eq sz n hr.1 hr.2, wrap_one sz hsz]

/-- C13: `ratio<0, 1>` is the value `0/1`, dividing any value by it fails with "division by
zero", and `ratio_divide<R1, R2>` fails with "division by zero" exactly when
`R2::num` is zero. -/
theorem ratio_divide_by_zero_iff (sz : Nat) (hsz : 0 < sz) (R1 R2 : RationalValue) :
    (ratio sz 0 1 = .ok ⟨0, 1⟩ ∧ ratio_divide sz R1 ⟨0, 1⟩ = .error .DivisionByZero) ∧
      (ratio_divide sz R1 R2 = .error .DivisionByZero ↔ R2.num = 0) := by
  have h0 : InRange sz 0 := by
    rw [inRange_iff]; have := half_pos sz; omega
  refine ⟨⟨ratio_one sz hsz 0 h0, by simp [ratio_divide]⟩, ?_, fun h => by simp [ratio_divide, h]⟩
  intro h
  by_contra hne
  unfold ratio_divide at h
  rw [if_neg hne, bind_eq_error] at h
  rcases h with h | ⟨v, -, h⟩
  · rcases ratio_error _ _ _ _ h with h' | h' | h' | h' <;> cases h'
  · rcases ratio_multiply_error _ _ _ _ h with h' | h' | h' | h' | h' <;> cases h'

/-- A concrete instance in the 64-bit configuration: `(1/2) / (0/1)`. -/
theorem ratio_divide_by_zero_iff_witness :
    0 < 8 ∧
      ((ratio 8 0 1 = .ok ⟨0, 1⟩ ∧ ratio_divide 8 ⟨1, 2⟩ ⟨0, 1⟩ = .error .DivisionByZero) ∧
        (ratio_divide 8 ⟨1, 2⟩ ⟨0, 1⟩ = .error .DivisionByZero
          ↔ (⟨0, 1⟩ : RationalValue).num = 0)) :=
  ⟨by decide, ratio_divide_by_zero_iff 8 (by decide) ⟨1, 2⟩ ⟨0, 1⟩⟩


/-! ## Comparison of canonical values -/

/-- Canonical form is unique: two canonical values with equal cross products have the
same members. -/
theorem canonical_unique (sz : Nat) (R1 R2 : RationalValue)
    (h1 : Canonical sz R1) (h2 : Canonical sz R2)
    (h : R1.num * R2.den = R2.num * R1.den) : R1.num = R2.num ∧ R1.den = R2.den := by
  obtain ⟨hd1, hg1, -, -⟩ := h1
  obtain ⟨hd2, hg2, -, -⟩ := h2
  have hb : R1.den ∣ R2.den := by
    have : R1.den ∣ R1.num * R2.den := ⟨R2.num, by rw [h]; ring⟩
    exact Int.dvd_of_dvd_mul_right_of_gcd_one this (by rw [Int.gcd_comm]; exact hg1)
  have hd : R2.den ∣ R1.den := by
    have : R2.den ∣ R2.num * R1.den := ⟨R1.num, by rw [← h]; ring⟩
    exact Int.dvd_of_dvd_mul_right_of_gcd_one this (by rw [Int.gcd_comm]; exact hg2)
  have hden : R1.den = R2.den := Int.dvd_antisymm hd1.le hd2.le hb hd
  refine ⟨?_, hden⟩
  rw [hden] at h
  exact mul_right_cancel₀ hd2.ne' h

theorem ratio_equal_iff (R1 R2 : RationalValue) :
    ratio_equal R1 R2 = true ↔ R1.num = R2.num ∧ R1.den = R2.den := by
  simp [ratio_equal]

/-- The value of `ratio_less` on canonical arguments, when it is instantiated without
error, is the comparison of the exact cross products. -/
theorem ratio_less_ok (sz : Nat) (hsz : 0 < sz) (R1 R2 : RationalValue)
    (h1 : Canonical sz R1) (h2 : Canonical sz R2) (v : Bool)
    (h : ratio_less sz R1 R2 = .ok v) :
    (v = true ↔ R1.num * R2.den < R2.num * R1.den) := by
  obtain ⟨hd1, -, hn1r, hd1r⟩ := h1
  obtain ⟨hd2, -, hn2r, hd2r⟩ := h2
  unfold ratio_less at h
  split at h
  · rename_i hden
    have hv := (Except.ok.inj h).symm
    rw [hv, decide_eq_true_eq, hden]
    exact (mul_lt_mul_right hd2).symm
  · unfold ratio_less_common at h
    rw [bind_eq_ok] at h
    obtain ⟨l, hl, h⟩ := h
    rw [bind_eq_ok] at h
    obtain ⟨r, hr, h⟩ := h
    have hv := (Except.ok.inj h).symm
    obtain ⟨hl', -⟩ := ratio_checked_multiply_ok sz hsz _ _ l hn1r hd2r hl
    obtain ⟨hr', -⟩ := ratio_checked_multiply_ok sz hsz _ _ r hn2r hd1r hr
    rw [hv, decide_eq_true_eq, hl', hr']

/-- The two orders of comparison fail together. -/
theorem ratio_less_swap_ok (sz : Nat) (R1 R2 : RationalValue) (v : Bool)
    (h : ratio_less sz R1 R2 = .ok v) : ∃ w, ratio_less sz R2 R1 = .ok w := by
  unfold ratio_less at h ⊢
  by_cases hden : R1.den = R2.den
  · rw [if_pos hden.symm]; exact ⟨_, rfl⟩
  · rw [if_neg hden] at h
    rw [if_neg (fun h' => hden h'.symm)]
    unfold ratio_less_common at h ⊢
    rw [bind_eq_ok] at h
    obtain ⟨l, hl, h⟩ := h
    rw [bind_eq_ok] at h
    obtain ⟨r, hr, h⟩ := h
    rw [hr, hl]
    exact ⟨_, rfl⟩

/-- C17: for canonical `R1` and `R2`, `ratio_equal<R1, R2>` holds exactly when the two
values denote the same rational number, `R1.num * R2.den = R2.num * R1.den`. -/
theorem ratio_equal_iff_same_rational (sz : Nat) (R1 R2 : RationalValue)
    (h1 : Canonical sz R1) (h2 : Canonical sz R2) :
    ratio_equal R1 R2 = true ↔ R1.num * R2.den = R2.num * R1.den := by
  rw [ratio_equal_iff]
  constructor
  · rintro ⟨hn, hd⟩; rw [hn, hd]
  · exact canonical_unique sz R1 R2 h1 h2

/-- A concrete instance in the 64-bit configuration: `-3/7` against `RATIO_MAX/2`. -/
theorem ratio_equal_iff_same_rational_witness :
    (Canonical 8 ⟨-3, 7⟩ ∧ Canonical 8 ⟨RATIO_MAX 8, 2⟩) ∧
      (ratio_equal ⟨-3, 7⟩ ⟨RATIO_MAX 8, 2⟩ = true ↔ (-3 : Int) * 2 = RATIO_MAX 8 * 7) :=
  ⟨⟨by decide, by decide⟩,
    ratio_equal_iff_same_rational 8 ⟨-3, 7⟩ ⟨RATIO_MAX 8, 2⟩ (by decide) (by decide)⟩

/-- C18: for canonical `R1` and `R2` on which `ratio_less<R1, R2>` is instantiated without
error, its value is true exactly when `R1.num * R2.den < R2.num * R1.den`; with equal
denominators the instantiation never fails and its value is `R1.num < R2.num`. -/
theorem ratio_less_iff (sz : Nat) (hsz : 0 < sz) (R1 R2 : RationalValue)
    (h1 : Canonical sz R1) (h2 : Canonical sz R2) :
    (∀ v, ratio_less sz R1 R2 = .ok v → (v = true ↔ R1.num * R2.den < R2.num * R1.den)) ∧
      (R1.den = R2.den → ratio_less sz R1 R2 = .ok (decide (R1.num < R2.num))) := by
  refine ⟨fun v h => ratio_less_ok sz hsz R1 R2 h1 h2 v h, fun hden => ?_⟩
  unfold ratio_less
  rw [if_pos hden]

/-- A concrete instance in the 64-bit configuration: `1/3 < 1/2`. -/
theorem ratio_less_iff_witness :
    (0 < 8 ∧ Canonical 8 ⟨1, 3⟩ ∧ Canonical 8 ⟨1, 2⟩ ∧ ratio_less 8 ⟨1, 3⟩ ⟨1, 2⟩ = .ok true) ∧
      ((∀ v, ratio_less 8 ⟨1, 3⟩ ⟨1, 2⟩ = .ok v → (v = true ↔ (1 : Int) * 2 < 1 * 3)) ∧
        ((3 : Int) = 2 → ratio_less 8 ⟨1, 3⟩ ⟨1, 2⟩ = .ok (decide ((1 : Int) < 1)))) :=
  ⟨⟨by decide, by decide, by decide, by decide⟩,
    ratio_less_iff 8 (by decide) ⟨1, 3⟩ ⟨1, 2⟩ (by decide) (by decide)⟩

/-- C19 (counterexample): in the 64-bit configuration, for the canonical values
`RATIO_MAX/2` and `1/3` both `ratio_less` instantiations trip "mul overflow" and
`ratio_equal` is false, so none of the three holds. -/
theorem trichotomy_fails_on_overflow :
    Canonical 8 ⟨RATIO_MAX 8, 2⟩ ∧ Canonical 8 ⟨1, 3⟩ ∧
      ratio_less 8 ⟨RATIO_MAX 8, 2⟩ ⟨1, 3⟩ = .error .MulOverflow ∧
      ratio_equal ⟨RATIO_MAX 8, 2⟩ ⟨1, 3⟩ = false ∧
      ratio_less 8 ⟨1, 3⟩ ⟨RATIO_MAX 8, 2⟩ = .error .MulOverflow := by
  decide

/-- C19 (amended): for canonical `R1` and `R2` on which `ratio_less<R1, R2>` is
instantiated without error, `ratio_less<R2, R1>` is too, and exactly one of
`ratio_less<R1, R2>`, `ratio_equal<R1, R2>`, `ratio_less<R2, R1>` is true. -/
theorem trichotomy_when_defined (sz : Nat) (hsz : 0 < sz) (R1 R2 : RationalValue)
    (h1 : Canonical sz R1) (h2 : Canonical sz R2) (l : Bool)
    (hl : ratio_less sz R1 R2 = .ok l) :
    ∃ g, ratio_less sz R2 R1 = .ok g ∧
      ((l = true ∧ ratio_equal R1 R2 = false ∧ g = false) ∨
        (l = false ∧ ratio_equal R1 R2 = true ∧ g = false) ∨
        (l = false ∧ ratio_equal R1 R2 = false ∧ g = true)) := by
  obtain ⟨g, hg⟩ := ratio_less_swap_ok sz R1 R2 l hl
  refine ⟨g, hg, ?_⟩
  have e1 := ratio_less_ok sz hsz R1 R2 h1 h2 l hl
  have e2 := ratio_less_ok sz hsz R2 R1 h2 h1 g hg
  have e3 : ratio_equal R1 R2 = true ↔ R1.num * R2.den = R2.num * R1.den := by
    rw [ratio_equal_iff]
    constructor
    · rintro ⟨hn, hd⟩; rw [hn, hd]
    · exact canonical_unique sz R1 R2 h1 h2
  rcases lt_trichotomy (R1.num * R2.den) (R2.num * R1.den) with h | h | h
  · left
    refine ⟨e1.2 h, ?_, ?_⟩
    · cases he : ratio_equal R1 R2
      · rfl
      · have := e3.1 he; omega
    · cases hg' : g
      · rfl
      · have := e2.1 hg'; omega
  · right; left
    refine ⟨?_, e3.2 h, ?_⟩
    · cases hl' : l
      · rfl
      · have := e1.1 hl'; omega
    · cases hg' : g
      · rfl
      · have := e2.1 hg'; omega
  · right; right
    refine ⟨?_, ?_, e2.2 h⟩
    · cases hl' : l
      · rfl
      · have := e1.1 hl'; omega
    · cases he : ratio_equal R1 R2
      · rfl
      · have := e3.1 he; omega

/-- A concrete instance in the 64-bit configuration: `1/3` against `1/2`. -/
theorem trichotomy_when_defined_witness :
    (0 < 8 ∧ Canonical 8 ⟨1, 3⟩ ∧ Canonical 8 ⟨1, 2⟩ ∧ ratio_less 8 ⟨1, 3⟩ ⟨1, 2⟩ = .ok true) ∧
      ∃ g, ratio_less 8 ⟨1, 2⟩ ⟨1, 3⟩ = .ok g ∧
        ((true = true ∧ ratio_equal ⟨1, 3⟩ ⟨1, 2⟩ = false ∧ g = false) ∨
          (true = false ∧ ratio_equal ⟨1, 3⟩ ⟨1, 2⟩ = true ∧ g = false) ∨
          (true = false ∧ ratio_equal ⟨1, 3⟩ ⟨1, 2⟩ = false ∧ g = true)) :=
  ⟨⟨by decide, by decide, by decide, by decide⟩,
    trichotomy_when_defined 8 (by decide) ⟨1, 3⟩ ⟨1, 2⟩ (by decide) (by decide) true
      (by decide)⟩


/-! ## Subtraction of a value whose numerator is `RATIO_MIN` -/

theorem ratio_min_inRange (sz : Nat) : InRange sz (RATIO_MIN sz) := by
  rw [inRange_iff]
  unfold RATIO_MIN
  have := half_pos sz
  omega

theorem wrap_neg_min (sz : Nat) : wrap sz (-RATIO_MIN sz) = RATIO_MIN sz := by
  have := half_pos sz
  unfold RATIO_MIN
  rw [wrap_eq_sub sz _ (by omega) (by omega)]
  ring

theorem ratio_checked_multiply_min (sz : Nat) (hsz : 0 < sz) (y : Int) (hy : InRange sz y) :
    ratio_checked_multiply sz (RATIO_MIN sz) y = .error .MulOverflow := by
  rw [ratio_checked_multiply_eq sz hsz _ y (ratio_min_inRange sz) hy, if_neg]
  exact fun h => h.1 rfl

/-- The class template on a canonical pair whose numerator is `RATIO_MIN`: the numerator
stays `RATIO_MIN`, the denominator keeps its magnitude. -/
theorem ratio_min_num (sz : Nat) (d : Int) (hd : 0 < d) (hdr : InRange sz d)
    (hg : Int.gcd (RATIO_MIN sz) d = 1) :
    ∃ R, ratio sz (RATIO_MIN sz) d = .ok R ∧ R.num = RATIO_MIN sz ∧ (R.den = d ∨ R.den = -d) := by
  have hmr := ratio_min_inRange sz
  have hH := half_pos sz
  have hdr' := (inRange_iff sz d).1 hdr
  obtain ⟨g, hgv, hgcd, -⟩ := gcd_spec sz (RATIO_MIN sz) d hmr hdr (Or.inr hd.ne')
  rw [hg] at hgcd
  have hg1 : g = 1 ∨ g = -1 := by omega
  have hs : sign d = 1 := by unfold sign; rw [if_neg (by omega)]
  have ha : abs sz d = d := by unfold abs; rw [if_pos (by omega)]
  have hw : wrap sz (RATIO_MIN sz) = RATIO_MIN sz := by
    unfold RATIO_MIN; exact wrap_eq sz _ (by omega) (by omega)
  unfold ratio
  rw [if_neg hd.ne', if_neg (not_not.2 ⟨hmr, hdr⟩), hgv]
  simp only [bind, Except.bind, pure, Except.pure, hs, ha, mul_one, hw]
  refine ⟨_, rfl, ?_, ?_⟩
  · show sdiv sz (RATIO_MIN sz) g = RATIO_MIN sz
    unfold sdiv
    rcases hg1 with h | h <;> rw [h]
    · rw [Int.tdiv_one, hw]
    · rw [Int.tdiv_neg, Int.tdiv_one, wrap_neg_min]
  · show sdiv sz d g = d ∨ sdiv sz d g = -d
    unfold sdiv
    rcases hg1 with h | h <;> rw [h]
    · left; rw [Int.tdiv_one]; exact wrap_eq sz d hdr'.1 hdr'.2
    · right; rw [Int.tdiv_neg, Int.tdiv_one]; exact wrap_eq sz _ (by omega) (by omega)

/-- Adding a value whose numerator is `RATIO_MIN` always trips "mul overflow". -/
theorem ratio_add_min_num (sz : Nat) (hsz : 0 < sz) (R1 R : RationalValue)
    (h1 : Canonical sz R1) (hn : R.num = RATIO_MIN sz) (hdr : InRange sz R.den)
    (hdm : R.den ≠ RATIO_MIN sz) :
    ratio_add sz R1 R = .error .MulOverflow := by
  obtain ⟨hd1, -, hn1r, hd1r⟩ := h1
  have hH := half_pos sz
  have hd1m : R1.den ≠ RATIO_MIN sz := by unfold RATIO_MIN; omega
  obtain ⟨g, hgv, hgcd, hpos⟩ := gcd_spec sz R1.den R.den hd1r hdr (Or.inl hd1.ne')
  have hgp := hpos hd1m hdm
  have hdv := gcd_value_dvd _ _ g hgcd
  obtain ⟨hq, hc | hc⟩ := sdiv_cases sz R1.den g hd1r hdv.1 hgp.ne'
  · have hy0 : sdiv sz R1.den g ≠ 0 := by
      intro h0; rw [hc.1] at h0; rw [h0, zero_mul] at hq; omega
    unfold ratio_add
    rw [hgv, hn]
    simp only [bind, Except.bind]
    cases hn1 : ratio_checked_multiply sz R1.num (sdiv sz R.den g) with
    | error e => simp only; rw [ratio_checked_multiply_error _ _ _ e hn1]
    | ok n1 =>
      simp only
      rw [ratio_checked_multiply_min sz hsz _ (sdiv_inRange sz _ _)]
  · exact absurd hc.1 hd1m

theorem ratio_checked_multiply_ok_ne_min (sz : Nat) (hsz : 0 < sz) (a b v : Int)
    (ha : InRange sz a) (hb : InRange sz b) (h : ratio_checked_multiply sz a b = .ok v) :
    a ≠ RATIO_MIN sz ∧ b ≠ RATIO_MIN sz := by
  rw [ratio_checked_multiply_eq sz hsz a b ha hb] at h
  split at h
  · rename_i hc
    exact ⟨hc.1, hc.2.1⟩
  · cases h

/-- No value comes out of `ratio_add` when a denominator is `RATIO_MIN`: the
`ratio_checked_multiply` of the denominators refuses it. -/
theorem ratio_add_den_min (sz : Nat) (hsz : 0 < sz) (R1 R2 : RationalValue)
    (hd1r : InRange sz R1.den) (hd2r : InRange sz R2.den) (hd1 : R1.den ≠ 0)
    (hm : R1.den = RATIO_MIN sz ∨ R2.den = RATIO_MIN sz) (R : RationalValue) :
    ratio_add sz R1 R2 ≠ .ok R := by
  intro hR
  have hH := half_pos sz
  obtain ⟨g, hg, hgcd, -⟩ := gcd_spec sz R1.den R2.den hd1r hd2r (Or.inl hd1)
  have hgn := gcd_value_ne_zero _ _ g hgcd (Or.inl hd1)
  have hdv := gcd_value_dvd _ _ g hgcd
  unfold ratio_add at hR
  rw [hg] at hR
  simp only [bind, Except.bind] at hR
  cases hn1 : ratio_checked_multiply sz R1.num (sdiv sz R2.den g) with
  | error e => rw [hn1] at hR; cases hR
  | ok n1 =>
    cases hn2 : ratio_checked_multiply sz R2.num (sdiv sz R1.den g) with
    | error e => rw [hn1, hn2] at hR; cases hR
    | ok n2 =>
      cases hn : ratio_checked_add sz n1 n2 with
      | error e => rw [hn1, hn2] at hR; simp only [hn] at hR; cases hR
      | ok n =>
        cases hd : ratio_checked_multiply sz R1.den (sdiv sz R2.den g) with
        | error e => rw [hn1, hn2] at hR; simp only [hn, hd] at hR; cases hR
        | ok d =>
          obtain ⟨-, hle⟩ := ratio_checked_multiply_ok sz hsz _ _ d hd1r (sdiv_inRange sz _ _) hd
          obtain ⟨hne1, hne2⟩ := ratio_checked_multiply_ok_ne_min sz hsz _ _ d hd1r
            (sdiv_inRange sz _ _) hd
          rcases hm with hm | hm
          · exact hne1 hm
          · obtain ⟨hq, hc | hc⟩ := sdiv_cases sz R2.den g hd2r hdv.2 hgn
            · rw [hc.1] at hle
              have habs : |Int.tdiv R2.den g| * |g| = (half sz : Int) := by
                rw [← abs_mul, hq, hm]; unfold RATIO_MIN; rw [abs_neg, abs_of_pos hH]
              have hgle : |g| ≤ |R1.den| := by
                have := Int.le_of_dvd (abs_pos.2 hd1) ((abs_dvd_abs g R1.den).2 hdv.1)
                exact this
              have h1 : |Int.tdiv R2.den g| * |g| ≤ |Int.tdiv R2.den g| * |R1.den| :=
                mul_le_mul_of_nonneg_left hgle (abs_nonneg _)
              rw [mul_comm] at hle
              unfold RATIO_MAX at hle
              omega
            · exact hne2 hc.2.2

/-- Subtracting a value whose numerator is `RATIO_MIN` always trips "mul overflow". -/
theorem ratio_subtract_min_num (sz : Nat) (hsz : 0 < sz) (R1 R2 : RationalValue)
    (h1 : Canonical sz R1) (h2 : Canonical sz R2) (hmin : R2.num = RATIO_MIN sz) :
    ratio_subtract sz R1 R2 = .error .MulOverflow := by
  obtain ⟨hd2, hg2, -, hd2r⟩ := h2
  have hH := half_pos sz
  have hd2r' := (inRange_iff sz _).1 hd2r
  rw [hmin] at hg2
  obtain ⟨R, hR, hRn, hRd⟩ := ratio_min_num sz R2.den hd2 hd2r hg2
  unfold ratio_subtract
  rw [hmin, wrap_neg_min, hR]
  simp only [bind, Except.bind]
  apply ratio_add_min_num sz hsz R1 R h1 hRn
  · rw [inRange_iff]; rcases hRd with h | h <;> rw [h] <;> omega
  · unfold RATIO_MIN; rcases hRd with h | h <;> rw [h] <;> omega

/-- C11: for canonical `R1` and `R2` with `R2::num == RATIO_MIN`, `ratio_subtract<R1, R2>`
is never instantiated without error: it trips "mul overflow", so no value, wrapped or
not, is produced. -/
theorem ratio_subtract_min_fails (sz : Nat) (hsz : 0 < sz) (R1 R2 : RationalValue)
    (h1 : Canonical sz R1) (h2 : Canonical sz R2) (hmin : R2.num = RATIO_MIN sz) :
    ratio_subtract sz R1 R2 = .error .MulOverflow :=
  ratio_subtract_min_num sz hsz R1 R2 h1 h2 hmin

/-- A concrete instance in the 64-bit configuration: `1/2 - RATIO_MIN/1`. -/
theorem ratio_subtract_min_fails_witness :
    (0 < 8 ∧ Canonical 8 ⟨1, 2⟩ ∧ Canonical 8 ⟨RATIO_MIN 8, 1⟩ ∧
        (⟨RATIO_MIN 8, 1⟩ : RationalValue).num = RATIO_MIN 8) ∧
      ratio_subtract 8 ⟨1, 2⟩ ⟨RATIO_MIN 8, 1⟩ = .error .MulOverflow :=
  ⟨⟨by decide, by decide, by decide, rfl⟩,
    ratio_subtract_min_fails 8 (by decide) ⟨1, 2⟩ ⟨RATIO_MIN 8, 1⟩ (by decide) (by decide) rfl⟩


/-! ## Addition of integers and subtraction of equal values -/

theorem ratio_checked_multiply_one (sz : Nat) (hsz : 0 < sz) (n : Int) (hn : InRange sz n)
    (hm : n ≠ RATIO_MIN sz) : ratio_checked_multiply sz n 1 = .ok n := by
  have h1 := one_lt_half sz hsz
  have hr := (inRange_iff sz n).1 hn
  have h1r : InRange sz 1 := by rw [inRange_iff]; omega
  have hone : (1 : Int) ≠ RATIO_MIN sz := by unfold RATIO_MIN; omega
  rw [ratio_checked_multiply_eq sz hsz n 1 hn h1r, if_pos, mul_one]
  refine ⟨hm, hone, ?_⟩
  unfold RATIO_MIN at hm
  have : |n| < (half sz : Int) := abs_lt.2 ⟨by omega, hr.2⟩
  unfold RATIO_MAX
  rw [abs_one, mul_one]
  omega

theorem sdiv_self (sz : Nat) (hsz : 0 < sz) (b : Int) (hb : b ≠ 0) : sdiv sz b b = 1 := by
  unfold sdiv
  rw [Int.tdiv_self hb, wrap_one sz hsz]

/-- Adding two integers `n1/1` and `n2/1` whose exact sum is outside the domain fails.
The first diagnostic is that of `ratio_checked_multiply` when one of them is `RATIO_MIN`,
"add overflow" otherwise. -/
theorem ratio_add_integers_overflow (sz : Nat) (hsz : 0 < sz) (n1 n2 : Int)
    (h1 : InRange sz n1) (h2 : InRange sz n2) (hsum : ¬ InRange sz (n1 + n2)) :
    ratio_add sz ⟨n1, 1⟩ ⟨n2, 1⟩
      = .error (if n1 = RATIO_MIN sz ∨ n2 = RATIO_MIN sz then .MulOverflow
                else .AddOverflow) := by
  have h1lt := one_lt_half sz hsz
  have h1r : InRange sz 1 := by rw [inRange_iff]; omega
  unfold ratio_add
  simp only [gcd_one_right, bind, Except.bind, sdiv_self sz hsz 1 one_ne_zero]
  by_cases hm1 : n1 = RATIO_MIN sz
  · rw [hm1, ratio_checked_multiply_min sz hsz 1 h1r]
    simp
  · rw [ratio_checked_multiply_one sz hsz n1 h1 hm1]
    simp only
    by_cases hm2 : n2 = RATIO_MIN sz
    · rw [hm2, ratio_checked_multiply_min sz hsz 1 h1r]
      simp
    · rw [ratio_checked_multiply_one sz hsz n2 h2 hm2]
      simp only
      have hc : ¬ check_add_flows sz n1 n2 = true :=
        fun hc => hsum ((check_add_flows_iff sz n1 n2 h1 h2).1 hc).1
      unfold ratio_checked_add
      rw [if_neg hc]
      simp [hm1, hm2]

theorem ratio_checked_multiply_value (sz : Nat) (a b v : Int)
    (h : ratio_checked_multiply sz a b = .ok v) : v = wrap sz (a * b) := by
  unfold ratio_checked_multiply at h
  split at h
  · cases h
  · split at h
    · exact (Except.ok.inj h).symm
    · cases h

theorem ratio_checked_add_value (sz : Nat) (a b v : Int)
    (h : ratio_checked_add sz a b = .ok v) : v = wrap sz (a + b) := by
  unfold ratio_checked_add at h
  split at h
  · exact (Except.ok.inj h).symm
  · cases h

/-- The outcome `ratio_add` and the list `ratio_add_diagnostics` agree: a value when the
list is empty, otherwise the first diagnostic of the list. -/
theorem ratio_add_eq_diagnostics (sz : Nat) (R1 R2 : RationalValue) :
    (∀ R, ratio_add sz R1 R2 = .ok R → ratio_add_diagnostics sz R1 R2 = []) ∧
      (∀ e, ratio_add sz R1 R2 = .error e →
        (ratio_add_diagnostics sz R1 R2).head? = some e) := by
  unfold ratio_add ratio_add_diagnostics
  cases hg : gcd sz R1.den R2.den with
  | error e0 => simp [bind, Except.bind]
  | ok g =>
    simp only [bind, Except.bind]
    cases hm1 : ratio_checked_multiply sz R1.num (sdiv sz R2.den g) with
    | error e1 => simp [diagnostic]
    | ok n1 =>
      have hv1 := ratio_checked_multiply_value sz _ _ n1 hm1
      cases hm2 : ratio_checked_multiply sz R2.num (sdiv sz R1.den g) with
      | error e2 => simp [diagnostic]
      | ok n2 =>
        have hv2 := ratio_checked_multiply_value sz _ _ n2 hm2
        rw [← hv1, ← hv2]
        cases ha : ratio_checked_add sz n1 n2 with
        | error e3 => simp [diagnostic, ha]
        | ok n =>
          have hv := ratio_checked_add_value sz _ _ n ha
          cases hm3 : ratio_checked_multiply sz R1.den (sdiv sz R2.den g) with
          | error e4 => simp [diagnostic, ha]
          | ok d =>
            have hv3 := ratio_checked_multiply_value sz _ _ d hm3
            rw [← hv, ← hv3]
            cases hr : ratio sz n d with
            | error e5 => simp [diagnostic, ha, hr]
            | ok R => simp [diagnostic, ha, hr]

/-- Adding two integers `n1/1` and `n2/1` whose exact sum is outside the domain: the
assertion "add overflow" is among the diagnostics. -/
theorem ratio_add_integers_diagnostics (sz : Nat) (hsz : 0 < sz) (n1 n2 : Int)
    (h1 : InRange sz n1) (h2 : InRange sz n2) (hsum : ¬ InRange sz (n1 + n2)) :
    Error.AddOverflow ∈ ratio_add_diagnostics sz ⟨n1, 1⟩ ⟨n2, 1⟩ := by
  have hr1 := (inRange_iff sz n1).1 h1
  have hr2 := (inRange_iff sz n2).1 h2
  have hc : ¬ check_add_flows sz n1 n2 = true :=
    fun hc => hsum ((check_add_flows_iff sz n1 n2 h1 h2).1 hc).1
  have hadd : ratio_checked_add sz n1 n2 = .error .AddOverflow := by
    unfold ratio_checked_add
    rw [if_neg hc]
  unfold ratio_add_diagnostics
  simp only [gcd_one_right, sdiv_self sz hsz 1 one_ne_zero, mul_one,
    wrap_eq sz n1 hr1.1 hr1.2, wrap_eq sz n2 hr2.1 hr2.2, hadd]
  simp [diagnostic]

/-- C16: for `n1`, `n2` in the domain whose exact sum is outside it, `ratio<n1, 1>` and
`ratio<n2, 1>` are the values `n1/1` and `n2/1`, their `ratio_add` has no value, and the
assertion "add overflow" of its `ratio_checked_add` is among the failed assertions; it is
the first of them when neither `n1` nor `n2` is `RATIO_MIN`. -/
theorem ratio_add_overflow_reported (sz : Nat) (hsz : 0 < sz) (n1 n2 : Int)
    (h1 : InRange sz n1) (h2 : InRange sz n2) (hsum : ¬ InRange sz (n1 + n2)) :
    ratio sz n1 1 = .ok ⟨n1, 1⟩ ∧ ratio sz n2 1 = .ok ⟨n2, 1⟩ ∧
      (∃ e, ratio_add sz ⟨n1, 1⟩ ⟨n2, 1⟩ = .error e) ∧
      Error.AddOverflow ∈ ratio_add_diagnostics sz ⟨n1, 1⟩ ⟨n2, 1⟩ ∧
      (n1 ≠ RATIO_MIN sz → n2 ≠ RATIO_MIN sz →
        ratio_add sz ⟨n1, 1⟩ ⟨n2, 1⟩ = .error .AddOverflow) := by
  have h := ratio_add_integers_overflow sz hsz n1 n2 h1 h2 hsum
  refine ⟨ratio_one sz hsz n1 h1, ratio_one sz hsz n2 h2, ⟨_, h⟩,
    ratio_add_integers_diagnostics sz hsz n1 n2 h1 h2 hsum, fun hm1 hm2 => ?_⟩
  rw [h, if_neg (by rintro (hh | hh); exact hm1 hh; exact hm2 hh)]

/-- A concrete instance in the 64-bit configuration: `RATIO_MAX/1 + 1/1` fails with
"add overflow". -/
theorem ratio_add_overflow_reported_witness :
    (0 < 8 ∧ InRange 8 (RATIO_MAX 8) ∧ InRange 8 1 ∧ ¬ InRange 8 (RATIO_MAX 8 + 1) ∧
        ratio_add 8 ⟨RATIO_MAX 8, 1⟩ ⟨1, 1⟩ = .error .AddOverflow ∧
        ratio_add_diagnostics 8 ⟨RATIO_MAX 8, 1⟩ ⟨1, 1⟩ = [.AddOverflow]) ∧
      (ratio 8 (RATIO_MAX 8) 1 = .ok ⟨RATIO_MAX 8, 1⟩ ∧ ratio 8 1 1 = .ok ⟨1, 1⟩ ∧
        (∃ e, ratio_add 8 ⟨RATIO_MAX 8, 1⟩ ⟨1, 1⟩ = .error e) ∧
        Error.AddOverflow ∈ ratio_add_diagnostics 8 ⟨RATIO_MAX 8, 1⟩ ⟨1, 1⟩ ∧
        (RATIO_MAX 8 ≠ RATIO_MIN 8 → (1 : Int) ≠ RATIO_MIN 8 →
          ratio_add 8 ⟨RATIO_MAX 8, 1⟩ ⟨1, 1⟩ = .error .AddOverflow)) :=
  ⟨⟨by decide, by decide, by decide, by decide, by decide, by decide⟩,
    ratio_add_overflow_reported 8 (by decide) (RATIO_MAX 8) 1 (by decide) (by decide)
      (by decide)⟩


/-! ## Subtraction against equality -/

theorem ratio_of_canonical_neg (sz : Nat) (R : RationalValue) (h : Canonical sz R)
    (hm : R.num ≠ RATIO_MIN sz) :
    ratio sz (wrap sz (-R.num)) R.den = .ok ⟨-R.num, R.den⟩ := by
  obtain ⟨hd, hg, hnr, hdr⟩ := h
  have hH := half_pos sz
  have hnr' := (inRange_iff sz _).1 hnr
  have hdr' := (inRange_iff sz _).1 hdr
  have hm' := hm
  unfold RATIO_MIN at hm'
  rw [wrap_eq sz _ (by omega) (by omega)]
  have hs : sign R.den = 1 := by unfold sign; rw [if_neg (by omega)]
  rw [ratio_eq sz (-R.num) R.den (by rw [inRange_iff]; omega) hdr
    (by unfold RATIO_MIN; omega) (by unfold RATIO_MIN; omega) hd.ne']
  rw [Int.neg_gcd, hg, hs, abs_of_pos hd]
  simp

theorem ratio_zero_num (sz : Nat) (b : Int) (hb : 0 < b) (hbr : InRange sz b) :
    ratio sz 0 b = .ok ⟨0, 1⟩ := by
  have hH := half_pos sz
  rw [ratio_eq sz 0 b (by rw [inRange_iff]; omega) hbr (by unfold RATIO_MIN; omega)
    (by unfold RATIO_MIN; omega) hb.ne']
  have hg : ((Int.gcd 0 b : Nat) : Int) = b := by
    rw [Int.gcd_zero_left, Int.natAbs_of_nonneg hb.le]
  rw [hg, abs_of_pos hb, Int.ediv_self hb.ne']
  simp

theorem gcd_self_pos (sz : Nat) (b : Int) (hb : 0 < b) (hbr : InRange sz b) :
    gcd sz b b = .ok b := by
  have hH := half_pos sz
  obtain ⟨g, hgv, hgcd, hpos⟩ := gcd_spec sz b b hbr hbr (Or.inl hb.ne')
  have hgp := hpos (by unfold RATIO_MIN; omega) (by unfold RATIO_MIN; omega)
  rw [Int.gcd_self] at hgcd
  rw [hgv]
  congr 1
  omega

/-- Subtracting a canonical value from itself gives `0/1`, unless its numerator is
`RATIO_MIN`. -/
theorem ratio_subtract_self (sz : Nat) (hsz : 0 < sz) (R : RationalValue)
    (h : Canonical sz R) (hm : R.num ≠ RATIO_MIN sz) :
    ratio_subtract sz R R = .ok ⟨0, 1⟩ := by
  have hneg := ratio_of_canonical_neg sz R h hm
  obtain ⟨hd, hg, hnr, hdr⟩ := h
  have hH := half_pos sz
  have hnr' := (inRange_iff sz _).1 hnr
  have hm' := hm
  unfold RATIO_MIN at hm'
  have hnegr : InRange sz (-R.num) := by rw [inRange_iff]; omega
  have hdm : R.den ≠ RATIO_MIN sz := by unfold RATIO_MIN; omega
  have hadd : ratio_checked_add sz R.num (-R.num) = .ok 0 := by
    unfold ratio_checked_add
    rw [if_pos, add_neg_cancel, wrap_zero]
    rw [check_add_flows_iff sz _ _ hnr hnegr, add_neg_cancel, inRange_iff]
    unfold RATIO_MIN
    refine ⟨by omega, by omega, by omega⟩
  unfold ratio_subtract
  rw [hneg]
  simp only [bind, Except.bind]
  unfold ratio_add
  simp only [gcd_self_pos sz R.den hd hdr, bind, Except.bind, sdiv_self sz hsz R.den hd.ne',
    ratio_checked_multiply_one sz hsz R.num hnr hm,
    ratio_checked_multiply_one sz hsz (-R.num) hnegr (by unfold RATIO_MIN; omega),
    ratio_checked_multiply_one sz hsz R.den hdr hdm, hadd]
  exact ratio_zero_num sz R.den hd hdr

/-- What a successful `ratio_add` of values with positive denominators is made of: the
exact reduced cross sum `n` over the exact reduced common denominator, normalised. -/
theorem ratio_add_ok (sz : Nat) (hsz : 0 < sz) (R1 R2 R : RationalValue)
    (hd1 : 0 < R1.den) (hd2 : 0 < R2.den) (hn1r : InRange sz R1.num) (hn2r : InRange sz R2.num)
    (hd1r : InRange sz R1.den) (hd2r : InRange sz R2.den)
    (h : ratio_add sz R1 R2 = .ok R) :
    ∃ g y1 y2 : Int, 0 < g ∧ y1 * g = R1.den ∧ y2 * g = R2.den ∧ 0 < y1 ∧ 0 < y2 ∧
      (g : Int) = Int.gcd R1.den R2.den ∧
      InRange sz (R1.num * y2 + R2.num * y1) ∧ InRange sz (R1.den * y2) ∧
      |R1.num| * y2 ≤ RATIO_MAX sz ∧ |R2.num| * y1 ≤ RATIO_MAX sz ∧
      R1.den * y2 ≤ RATIO_MAX sz ∧
      ratio sz (R1.num * y2 + R2.num * y1) (R1.den * y2) = .ok R := by
  have hH := half_pos sz
  have hd1m : R1.den ≠ RATIO_MIN sz := by unfold RATIO_MIN; omega
  have hd2m : R2.den ≠ RATIO_MIN sz := by unfold RATIO_MIN; omega
  obtain ⟨g, hgv, hgcd, hpos⟩ := gcd_spec sz R1.den R2.den hd1r hd2r (Or.inl hd1.ne')
  have hgp := hpos hd1m hd2m
  have hdv := gcd_value_dvd _ _ g hgcd
  have hy1 : sdiv sz R1.den g * g = R1.den := by
    obtain ⟨hq, hc | hc⟩ := sdiv_cases sz R1.den g hd1r hdv.1 hgp.ne'
    · rw [hc.1]; exact hq
    · exact absurd hc.1 hd1m
  have hy2 : sdiv sz R2.den g * g = R2.den := by
    obtain ⟨hq, hc | hc⟩ := sdiv_cases sz R2.den g hd2r hdv.2 hgp.ne'
    · rw [hc.1]; exact hq
    · exact absurd hc.1 hd2m
  have hy1p : 0 < sdiv sz R1.den g := by
    by_contra hneg
    have : sdiv sz R1.den g * g ≤ 0 := mul_nonpos_of_nonpos_of_nonneg (by omega) hgp.le
    omega
  have hy2p : 0 < sdiv sz R2.den g := by
    by_contra hneg
    have : sdiv sz R2.den g * g ≤ 0 := mul_nonpos_of_nonpos_of_nonneg (by omega) hgp.le
    omega
  unfold ratio_add at h
  rw [hgv] at h
  simp only [bind_eq_ok] at h
  obtain ⟨g', hg', n1, hn1, n2, hn2, n, hn, d, hd, hR⟩ := h
  have hgg : g' = g := (Except.ok.inj hg').symm
  subst hgg
  obtain ⟨e1, b1⟩ := ratio_checked_multiply_ok sz hsz _ _ n1 hn1r (sdiv_inRange sz _ _) hn1
  obtain ⟨e2, b2⟩ := ratio_checked_multiply_ok sz hsz _ _ n2 hn2r (sdiv_inRange sz _ _) hn2
  obtain ⟨e4, b4⟩ := ratio_checked_multiply_ok sz hsz _ _ d hd1r (sdiv_inRange sz _ _) hd
  obtain ⟨r1, -⟩ := product_inRange sz _ _ b1
  obtain ⟨r2, -⟩ := product_inRange sz _ _ b2
  obtain ⟨r4, -⟩ := product_inRange sz _ _ b4
  rw [← e1] at r1
  rw [← e2] at r2
  obtain ⟨e3, r3⟩ := ratio_checked_add_ok sz n1 n2 n r1 r2 hn
  rw [abs_of_pos hy2p] at b1
  rw [abs_of_pos hy1p] at b2
  rw [abs_of_pos hd1, abs_of_pos hy2p] at b4
  refine ⟨g', _, _, hgp, hy1, hy2, hy1p, hy2p, ?_, ?_, r4, b1, b2, b4, ?_⟩
  · rw [← hgcd]; exact (Int.natAbs_of_nonneg hgp.le).symm
  · rw [← e1, ← e2]; exact r3
  · rw [← e1, ← e2, ← e3, ← e4]; exact hR

theorem ratio_num_eq_zero (sz : Nat) (n d : Int) (R : RationalValue) (hn : InRange sz n)
    (hd : 0 < d) (hdr : InRange sz d) (h : ratio sz n d = .ok R) (h0 : R.num = 0) : n = 0 := by
  have hnr := (inRange_iff sz n).1 hn
  obtain ⟨g, hgv, hgcd, -⟩ := gcd_spec sz n d hn hdr (Or.inr hd.ne')
  have hdv := gcd_value_dvd _ _ g hgcd
  have hg0 := gcd_value_ne_zero _ _ g hgcd (Or.inr hd.ne')
  have hs : sign d = 1 := by unfold sign; rw [if_neg (by omega)]
  unfold ratio at h
  rw [if_neg hd.ne', if_neg (not_not.2 ⟨hn, hdr⟩), hgv] at h
  simp only [bind, Except.bind, pure, Except.pure, hs, mul_one, wrap_eq sz n hnr.1 hnr.2] at h
  have hR := (Except.ok.inj h).symm
  rw [hR] at h0
  exact sdiv_eq_zero sz n g hn hdv.1 hg0 h0

/-- C20 (counterexample): in the 64-bit configuration the canonical value `RATIO_MIN/1`
is equal to itself, yet subtracting it from itself trips "mul overflow". -/
theorem ratio_subtract_self_min_fails :
    Canonical 8 ⟨RATIO_MIN 8, 1⟩ ∧
      ratio_equal ⟨RATIO_MIN 8, 1⟩ ⟨RATIO_MIN 8, 1⟩ = true ∧
      ratio_subtract 8 ⟨RATIO_MIN 8, 1⟩ ⟨RATIO_MIN 8, 1⟩ = .error .MulOverflow := by
  decide

/-- Away from a numerator `RATIO_MIN` of the subtrahend, equality is subtraction to
`0/1`. -/
theorem ratio_equal_iff_subtract_of_ne_min (sz : Nat) (hsz : 0 < sz) (R1 R2 : RationalValue)
    (h1 : Canonical sz R1) (h2 : Canonical sz R2) (hm : R2.num ≠ RATIO_MIN sz) :
    ratio_equal R1 R2 = true ↔ ratio_subtract sz R1 R2 = .ok ⟨0, 1⟩ := by
  constructor
  · intro he
    obtain ⟨hn, hd⟩ := (ratio_equal_iff R1 R2).1 he
    have hR : R1 = R2 := by
      cases R1; cases R2; simp only [RationalValue.mk.injEq]; exact ⟨hn, hd⟩
    rw [hR]
    exact ratio_subtract_self sz hsz R2 h2 hm
  · intro hs
    rw [ratio_equal_iff]
    apply canonical_unique sz R1 R2 h1 h2
    have hneg := ratio_of_canonical_neg sz R2 h2 hm
    obtain ⟨hd1, -, hn1r, hd1r⟩ := h1
    obtain ⟨hd2, -, hn2r, hd2r⟩ := h2
    have hH := half_pos sz
    have hn2r' := (inRange_iff sz _).1 hn2r
    unfold RATIO_MIN at hm
    unfold ratio_subtract at hs
    rw [hneg] at hs
    simp only [bind, Except.bind] at hs
    obtain ⟨g, y1, y2, hg, hy1, hy2, hy1p, hy2p, -, hnr, hdr, -, -, -, hR⟩ :=
      ratio_add_ok sz hsz R1 ⟨-R2.num, R2.den⟩ ⟨0, 1⟩ hd1 hd2 hn1r
        (by rw [inRange_iff]; show -(half sz : Int) ≤ -R2.num ∧ -R2.num < (half sz : Int); omega)
        hd1r hd2r hs
    simp only at hy2 hnr hdr hR
    have hz := ratio_num_eq_zero sz _ _ ⟨0, 1⟩ hnr (mul_pos hd1 hy2p) hdr hR rfl
    calc R1.num * R2.den = R1.num * (y2 * g) := by rw [hy2]
      _ = (R1.num * y2 + -R2.num * y1) * g + R2.num * (y1 * g) := by ring
      _ = R2.num * R1.den := by rw [hz, hy1]; ring

/-- C20 (amended): for canonical `R1` and `R2`, except when `R1` and `R2` are the same
value with numerator `RATIO_MIN`, `ratio_equal<R1, R2>` holds exactly when
`ratio_subtract<R1, R2>` is instantiated without error with `num = 0` and `den = 1`. -/
theorem ratio_equal_iff_subtract_zero (sz : Nat) (hsz : 0 < sz) (R1 R2 : RationalValue)
    (h1 : Canonical sz R1) (h2 : Canonical sz R2)
    (hm : ¬ (R1 = R2 ∧ R2.num = RATIO_MIN sz)) :
    ratio_equal R1 R2 = true ↔ ratio_subtract sz R1 R2 = .ok ⟨0, 1⟩ := by
  by_cases hmin : R2.num = RATIO_MIN sz
  · have hfail := ratio_subtract_min_num sz hsz R1 R2 h1 h2 hmin
    constructor
    · intro he
      exfalso
      obtain ⟨hn, hd⟩ := (ratio_equal_iff R1 R2).1 he
      apply hm
      refine ⟨?_, hmin⟩
      cases R1; cases R2; simp only [RationalValue.mk.injEq]; exact ⟨hn, hd⟩
    · intro hs
      rw [hfail] at hs
      cases hs
  · exact ratio_equal_iff_subtract_of_ne_min sz hsz R1 R2 h1 h2 hmin

/-- A concrete instance in the 64-bit configuration, with a subtrahend whose numerator is
`RATIO_MIN`: `1/2` against `RATIO_MIN/1`. -/
theorem ratio_equal_iff_subtract_zero_witness :
    (0 < 8 ∧ Canonical 8 ⟨1, 2⟩ ∧ Canonical 8 ⟨RATIO_MIN 8, 1⟩ ∧
        ¬ ((⟨1, 2⟩ : RationalValue) = ⟨RATIO_MIN 8, 1⟩ ∧
          (⟨RATIO_MIN 8, 1⟩ : RationalValue).num = RATIO_MIN 8) ∧
        ratio_equal ⟨1, 2⟩ ⟨RATIO_MIN 8, 1⟩ = false) ∧
      (ratio_equal ⟨1, 2⟩ ⟨RATIO_MIN 8, 1⟩ = true
        ↔ ratio_subtract 8 ⟨1, 2⟩ ⟨RATIO_MIN 8, 1⟩ = .ok ⟨0, 1⟩) :=
  ⟨⟨by decide, by decide, by decide, by decide, by decide⟩,
    ratio_equal_iff_subtract_zero 8 (by decide) ⟨1, 2⟩ ⟨RATIO_MIN 8, 1⟩ (by decide) (by decide)
      (by decide)⟩


/-! ## Overflow of the cross-reduced product -/

theorem sdiv_natAbs (sz : Nat) (a g : Int) (ha : InRange sz a) (hdvd : g ∣ a) (hg : g ≠ 0) :
    (sdiv sz a g).natAbs * g.natAbs = a.natAbs := by
  obtain ⟨hq, hc | hc⟩ := sdiv_cases sz a g ha hdvd hg
  · rw [hc.1, ← Int.natAbs_mul, hq]
  · rw [hc.2.2, hc.2.1, ← hc.1]
    simp

/-- Cross reduction of two fractions in lowest terms leaves a product in lowest terms. -/
theorem cross_gcd (A B C D X1 X2 Y1 Y2 G1 G2 : Nat) (hab : Nat.Coprime A B)
    (hcd : Nat.Coprime C D) (hG1 : G1 = Nat.gcd A D) (hG2 : G2 = Nat.gcd C B)
    (h1 : 0 < G1) (h2 : 0 < G2)
    (hx1 : X1 * G1 = A) (hy2 : Y2 * G1 = D) (hx2 : X2 * G2 = C) (hy1 : Y1 * G2 = B) :
    Nat.gcd (A * C) (B * D) = G1 * G2 ∧ A * C = X1 * X2 * (G1 * G2)
      ∧ B * D = Y1 * Y2 * (G1 * G2) := by
  have hP : A * C = X1 * X2 * (G1 * G2) := by rw [← hx1, ← hx2]; ring
  have hQ : B * D = Y1 * Y2 * (G1 * G2) := by rw [← hy1, ← hy2]; ring
  have c11 : Nat.Coprime X1 Y1 :=
    Nat.Coprime.coprime_dvd_left ⟨G1, by rw [← hx1]⟩
      (Nat.Coprime.coprime_dvd_right ⟨G2, by rw [← hy1]⟩ hab)
  have c22 : Nat.Coprime X2 Y2 :=
    Nat.Coprime.coprime_dvd_left ⟨G2, by rw [← hx2]⟩
      (Nat.Coprime.coprime_dvd_right ⟨G1, by rw [← hy2]⟩ hcd)
  have c12 : Nat.Coprime X1 Y2 := by
    have h : Nat.gcd (X1 * G1) (Y2 * G1) = G1 := by rw [hx1, hy2]; exact hG1.symm
    rw [Nat.gcd_mul_right] at h
    have h' : Nat.gcd X1 Y2 * G1 = 1 * G1 := by rw [h, one_mul]
    exact Nat.eq_of_mul_eq_mul_right h1 h'
  have c21 : Nat.Coprime X2 Y1 := by
    have h : Nat.gcd (X2 * G2) (Y1 * G2) = G2 := by rw [hx2, hy1]; exact hG2.symm
    rw [Nat.gcd_mul_right] at h
    have h' : Nat.gcd X2 Y1 * G2 = 1 * G2 := by rw [h, one_mul]
    exact Nat.eq_of_mul_eq_mul_right h2 h'
  have cop : Nat.Coprime (X1 * X2) (Y1 * Y2) :=
    Nat.Coprime.mul (Nat.Coprime.mul_right c11 c12) (Nat.Coprime.mul_right c21 c22)
  refine ⟨?_, hP, hQ⟩
  rw [hP, hQ, Nat.gcd_mul_right, cop, one_mul]

theorem sdiv_ne_min (sz : Nat) (a g : Int) (ha : InRange sz a) (hm : a ≠ RATIO_MIN sz)
    (hdvd : g ∣ a) (hg : g ≠ 0) : sdiv sz a g ≠ RATIO_MIN sz := by
  have hH := half_pos sz
  have ha' := (inRange_iff sz a).1 ha
  obtain ⟨-, hc | hc⟩ := sdiv_cases sz a g ha hdvd hg
  · intro h
    have hlt : |a| < (half sz : Int) := abs_lt.2 ⟨by unfold RATIO_MIN at hm; omega, ha'.2⟩
    have hq := neg_abs_le (Int.tdiv a g)
    have hle := hc.2.1
    rw [hc.1] at h
    unfold RATIO_MIN at h
    omega
  · exact absurd hc.1 hm

/-- The outcome of `ratio_multiply` on canonical values whose numerators are not
`RATIO_MIN`: with `P / Q` the exact product and `G = gcd(P, Q)`, it trips "mul overflow"
when `|P / G|` or `Q / G` exceeds `RATIO_MAX`, and is instantiated without error
otherwise. -/
theorem ratio_multiply_outcome (sz : Nat) (hsz : 0 < sz) (R1 R2 : RationalValue)
    (h1 : Canonical sz R1) (h2 : Canonical sz R2)
    (hm1 : R1.num ≠ RATIO_MIN sz) (hm2 : R2.num ≠ RATIO_MIN sz) :
    ((RATIO_MAX sz < |R1.num * R2.num / (Int.gcd (R1.num * R2.num) (R1.den * R2.den) : Int)| ∨
        RATIO_MAX sz < R1.den * R2.den / (Int.gcd (R1.num * R2.num) (R1.den * R2.den) : Int)) ∧
      ratio_multiply sz R1 R2 = .error .MulOverflow) ∨
    ((|R1.num * R2.num / (Int.gcd (R1.num * R2.num) (R1.den * R2.den) : Int)| ≤ RATIO_MAX sz ∧
        R1.den * R2.den / (Int.gcd (R1.num * R2.num) (R1.den * R2.den) : Int) ≤ RATIO_MAX sz) ∧
      ∃ R, ratio_multiply sz R1 R2 = .ok R) := by
  obtain ⟨hd1, hc1, hn1r, hd1r⟩ := h1
  obtain ⟨hd2, hc2, hn2r, hd2r⟩ := h2
  obtain ⟨g1, hg1, hgcd1, -⟩ := gcd_spec sz R1.num R2.den hn1r hd2r (Or.inr hd2.ne')
  obtain ⟨g2, hg2, hgcd2, -⟩ := gcd_spec sz R2.num R1.den hn2r hd1r (Or.inr hd1.ne')
  have hg1n := gcd_value_ne_zero _ _ g1 hgcd1 (Or.inr hd2.ne')
  have hg2n := gcd_value_ne_zero _ _ g2 hgcd2 (Or.inr hd1.ne')
  have hdv1 := gcd_value_dvd _ _ g1 hgcd1
  have hdv2 := gcd_value_dvd _ _ g2 hgcd2
  have ex1 := sdiv_natAbs sz R1.num g1 hn1r hdv1.1 hg1n
  have ey2 := sdiv_natAbs sz R2.den g1 hd2r hdv1.2 hg1n
  have ex2 := sdiv_natAbs sz R2.num g2 hn2r hdv2.1 hg2n
  have ey1 := sdiv_natAbs sz R1.den g2 hd1r hdv2.2 hg2n
  have hG1pos : 0 < g1.natAbs := Int.natAbs_pos.2 hg1n
  have hG2pos : 0 < g2.natAbs := Int.natAbs_pos.2 hg2n
  obtain ⟨hG, hP, hQ⟩ := cross_gcd R1.num.natAbs R1.den.natAbs R2.num.natAbs R2.den.natAbs
    _ _ _ _ g1.natAbs g2.natAbs hc1 hc2 hgcd1 hgcd2 hG1pos hG2pos ex1 ey2 ex2 ey1
  generalize hX1 : (sdiv sz R1.num g1).natAbs = X1 at *
  generalize hX2 : (sdiv sz R2.num g2).natAbs = X2 at *
  generalize hY1 : (sdiv sz R1.den g2).natAbs = Y1 at *
  generalize hY2 : (sdiv sz R2.den g1).natAbs = Y2 at *
  have hGint : Int.gcd (R1.num * R2.num) (R1.den * R2.den) = g1.natAbs * g2.natAbs := by
    unfold Int.gcd
    rw [Int.natAbs_mul, Int.natAbs_mul]
    exact hG
  have hGpos : 0 < g1.natAbs * g2.natAbs := Nat.mul_pos hG1pos hG2pos
  have hGposI : (0 : Int) < ((g1.natAbs * g2.natAbs : Nat) : Int) := by exact_mod_cast hGpos
  have hPabs : |R1.num * R2.num / ((g1.natAbs * g2.natAbs : Nat) : Int)| = ((X1 * X2 : Nat) : Int) := by
    have hdvd : ((g1.natAbs * g2.natAbs : Nat) : Int) ∣ R1.num * R2.num := by
      rw [← hGint]; exact Int.gcd_dvd_left
    obtain ⟨q, hq⟩ := hdvd
    rw [hq, Int.mul_ediv_cancel_left _ hGposI.ne', Int.abs_eq_natAbs]
    have hn : (R1.num * R2.num).natAbs = (g1.natAbs * g2.natAbs) * q.natAbs := by
      rw [hq, Int.natAbs_mul, Int.natAbs_ofNat]
    rw [Int.natAbs_mul, hP] at hn
    have : X1 * X2 = q.natAbs := by
      apply Nat.eq_of_mul_eq_mul_left hGpos
      rw [← hn]; ring
    rw [this]
  have hQv : R1.den * R2.den / ((g1.natAbs * g2.natAbs : Nat) : Int) = ((Y1 * Y2 : Nat) : Int) := by
    have hQI : R1.den * R2.den = ((Y1 * Y2 : Nat) : Int) * ((g1.natAbs * g2.natAbs : Nat) : Int) := by
      have hpos : 0 ≤ R1.den * R2.den := (mul_pos hd1 hd2).le
      rw [← Int.natAbs_of_nonneg hpos, Int.natAbs_mul, hQ]
      push_cast
      ring
    rw [hQI, Int.mul_ediv_cancel _ hGposI.ne']
  have hA : |sdiv sz R1.num g1| * |sdiv sz R2.num g2| = ((X1 * X2 : Nat) : Int) := by
    rw [Int.abs_eq_natAbs, Int.abs_eq_natAbs, hX1, hX2]; push_cast; rfl
  have hB : |sdiv sz R1.den g2| * |sdiv sz R2.den g1| = ((Y1 * Y2 : Nat) : Int) := by
    rw [Int.abs_eq_natAbs, Int.abs_eq_natAbs, hY1, hY2]; push_cast; rfl
  have hH := half_pos sz
  have hd1m : R1.den ≠ RATIO_MIN sz := by unfold RATIO_MIN; omega
  have hd2m : R2.den ≠ RATIO_MIN sz := by unfold RATIO_MIN; omega
  have hx1m := sdiv_ne_min sz R1.num g1 hn1r hm1 hdv1.1 hg1n
  have hx2m := sdiv_ne_min sz R2.num g2 hn2r hm2 hdv2.1 hg2n
  have hy1m := sdiv_ne_min sz R1.den g2 hd1r hd1m hdv2.2 hg2n
  have hy2m := sdiv_ne_min sz R2.den g1 hd2r hd2m hdv1.2 hg1n
  rw [hGint, hPabs, hQv]
  unfold ratio_multiply
  rw [hg1, hg2]
  simp only [bind, Except.bind, gcd_overflows_false sz _ _ hn1r hd2r hm1 hd2m,
    gcd_overflows_false sz _ _ hn2r hd1r hm2 hd1m, Bool.or_self, Bool.false_eq_true, if_false]
  rw [ratio_checked_multiply_eq_abs sz hsz _ _ (sdiv_inRange sz _ _) (sdiv_inRange sz _ _)
      (fun h => absurd h hx1m) (fun h => absurd h hx2m),
    ratio_checked_multiply_eq_abs sz hsz _ _ (sdiv_inRange sz _ _) (sdiv_inRange sz _ _)
      (fun h => absurd h hy1m) (fun h => absurd h hy2m), hA, hB]
  by_cases ha : ((X1 * X2 : Nat) : Int) ≤ RATIO_MAX sz
  · by_cases hb : ((Y1 * Y2 : Nat) : Int) ≤ RATIO_MAX sz
    · right
      refine ⟨⟨ha, hb⟩, ?_⟩
      rw [if_pos ha, if_pos hb]
      simp only
      rw [← hA] at ha
      rw [← hB] at hb
      obtain ⟨hnr, hnm⟩ := product_inRange sz _ _ ha
      obtain ⟨hdr, hdm⟩ := product_inRange sz _ _ hb
      have hd0 : sdiv sz R1.den g2 * sdiv sz R2.den g1 ≠ 0 := by
        apply mul_ne_zero
        · intro h0
          rw [h0] at hY1; simp at hY1
          rw [← hY1, zero_mul] at ey1
          have := Int.natAbs_eq_zero.1 ey1.symm
          omega
        · intro h0
          rw [h0] at hY2; simp at hY2
          rw [← hY2, zero_mul] at ey2
          have := Int.natAbs_eq_zero.1 ey2.symm
          omega
      exact ⟨_, ratio_eq sz _ _ hnr hdr hnm hdm hd0⟩
    · left
      refine ⟨Or.inr (by omega), ?_⟩
      rw [if_pos ha, if_neg hb]
  · left
    refine ⟨Or.inl (by omega), ?_⟩
    rw [if_neg ha]

/-- Away from `RATIO_MIN` numerators `ratio_multiply` trips "mul overflow" exactly when
the product in lowest terms has a numerator magnitude or a denominator above `RATIO_MAX`,
and is instantiated without error otherwise. -/
theorem ratio_multiply_overflow_iff_of_ne_min (sz : Nat) (hsz : 0 < sz) (R1 R2 : RationalValue)
    (h1 : Canonical sz R1) (h2 : Canonical sz R2)
    (hm1 : R1.num ≠ RATIO_MIN sz) (hm2 : R2.num ≠ RATIO_MIN sz) :
    (ratio_multiply sz R1 R2 = .error .MulOverflow ↔
      (RATIO_MAX sz < |R1.num * R2.num / (Int.gcd (R1.num * R2.num) (R1.den * R2.den) : Int)| ∨
        RATIO_MAX sz < R1.den * R2.den / (Int.gcd (R1.num * R2.num) (R1.den * R2.den) : Int))) ∧
      (ratio_multiply sz R1 R2 = .error .MulOverflow ∨ ∃ R, ratio_multiply sz R1 R2 = .ok R) := by
  rcases ratio_multiply_outcome sz hsz R1 R2 h1 h2 hm1 hm2 with ⟨hov, he⟩ | ⟨⟨ha, hb⟩, R, hR⟩
  · exact ⟨⟨fun _ => hov, fun _ => he⟩, Or.inl he⟩
  · refine ⟨⟨fun he => ?_, fun hov => ?_⟩, Or.inr ⟨R, hR⟩⟩
    · rw [hR] at he; cases he
    · exfalso; omega

/-- C14 (evaluation at the failing input): in the 64-bit configuration adding the canonical
values `-1/6` and `-RATIO_MAX/6` succeeds with `num = 2^62`, `den = -3`, which is not
canonical. -/
theorem ratio_add_not_canonical :
    Canonical 8 ⟨-1, 6⟩ ∧ Canonical 8 ⟨-RATIO_MAX 8, 6⟩ ∧
      ratio_add 8 ⟨-1, 6⟩ ⟨-RATIO_MAX 8, 6⟩ = .ok ⟨4611686018427387904, -3⟩ ∧
      ¬ Canonical 8 ⟨4611686018427387904, -3⟩ := by
  decide



/-! ## Failures of the comparators -/

/-- Complete description of `ratio_less_common` on values with components in the
domain and positive denominators. -/
theorem ratio_less_common_eq (sz : Nat) (hsz : 0 < sz) (R1 R2 : RationalValue)
    (hn1r : InRange sz R1.num) (hd1r : InRange sz R1.den)
    (hn2r : InRange sz R2.num) (hd2r : InRange sz R2.den)
    (hd1 : 0 < R1.den) (hd2 : 0 < R2.den) :
    ratio_less_common sz R1 R2
      = if |R1.num| * |R2.den| ≤ RATIO_MAX sz ∧ |R2.num| * |R1.den| ≤ RATIO_MAX sz
        then .ok (decide (R1.num * R2.den < R2.num * R1.den)) else .error .MulOverflow := by
  have hH := half_pos sz
  have hd1m : R1.den ≠ RATIO_MIN sz := by unfold RATIO_MIN; omega
  have hd2m : R2.den ≠ RATIO_MIN sz := by unfold RATIO_MIN; omega
  unfold ratio_less_common
  rw [ratio_checked_multiply_eq_abs sz hsz _ _ hn1r hd2r (fun _ => hd2.ne')
      (fun h => absurd h hd2m),
    ratio_checked_multiply_eq_abs sz hsz _ _ hn2r hd1r (fun _ => hd1.ne')
      (fun h => absurd h hd1m)]
  by_cases p1 : |R1.num| * |R2.den| ≤ RATIO_MAX sz <;>
    by_cases p2 : |R2.num| * |R1.den| ≤ RATIO_MAX sz <;>
    simp [p1, p2, bind, Except.bind, pure, Except.pure]

theorem map_not_error (x : Except Error Bool) (e : Error) :
    (x >>= fun l => pure (!l)) = .error e ↔ x = .error e := by
  cases x <;> simp [bind, Except.bind, pure, Except.pure]

/-- C21: for canonical `R1` and `R2`, `ratio_equal` and `ratio_not_equal` are plain boolean
constants without assertion; `ratio_less<R1, R2>` never fails when the denominators are
equal; when they differ it fails exactly when `|R1.num| * R2.den` or `|R2.num| * R1.den`
exceeds `RATIO_MAX`, and then with "mul overflow"; `ratio_less_equal`, `ratio_greater` and
`ratio_greater_equal` fail exactly as the `ratio_less` instantiation they are defined by. -/
theorem comparator_failures (sz : Nat) (hsz : 0 < sz) (R1 R2 : RationalValue)
    (h1 : Canonical sz R1) (h2 : Canonical sz R2) :
    ratio_not_equal R1 R2 = (!ratio_equal R1 R2) ∧
      (R1.den = R2.den → ∃ v, ratio_less sz R1 R2 = .ok v) ∧
      (R1.den ≠ R2.den →
        ((∃ e, ratio_less sz R1 R2 = .error e) ↔
          (RATIO_MAX sz < |R1.num| * R2.den ∨ RATIO_MAX sz < |R2.num| * R1.den)) ∧
        (∀ e, ratio_less sz R1 R2 = .error e → e = .MulOverflow)) ∧
      (∀ e, ratio_less_equal sz R1 R2 = .error e ↔ ratio_less sz R2 R1 = .error e) ∧
      (∀ e, ratio_greater sz R1 R2 = .error e ↔ ratio_less sz R2 R1 = .error e) ∧
      (∀ e, ratio_greater_equal sz R1 R2 = .error e ↔ ratio_less sz R1 R2 = .error e) := by
  obtain ⟨hd1, -, hn1r, hd1r⟩ := h1
  obtain ⟨hd2, -, hn2r, hd2r⟩ := h2
  refine ⟨rfl, ?_, ?_, ?_, fun e => Iff.rfl, ?_⟩
  · intro hden
    unfold ratio_less
    rw [if_pos hden]
    exact ⟨_, rfl⟩
  · intro hden
    unfold ratio_less
    rw [if_neg hden, ratio_less_common_eq sz hsz R1 R2 hn1r hd1r hn2r hd2r hd1 hd2,
      abs_of_pos hd1, abs_of_pos hd2]
    by_cases p : |R1.num| * R2.den ≤ RATIO_MAX sz ∧ |R2.num| * R1.den ≤ RATIO_MAX sz
    · rw [if_pos p]
      refine ⟨⟨?_, fun h => ?_⟩, fun e he => ?_⟩
      · rintro ⟨e, he⟩; cases he
      · exfalso; omega
      · cases he
    · rw [if_neg p]
      refine ⟨⟨fun _ => ?_, fun _ => ⟨_, rfl⟩⟩, fun e he => (Except.error.inj he).symm⟩
      by_contra hn
      exact p ⟨by omega, by omega⟩
  · intro e
    unfold ratio_less_equal
    exact map_not_error _ e
  · intro e
    unfold ratio_greater_equal
    exact map_not_error _ e

/-- A concrete instance in the 64-bit configuration: `RATIO_MAX/2` against `1/3`. -/
theorem comparator_failures_witness :
    (0 < 8 ∧ Canonical 8 ⟨RATIO_MAX 8, 2⟩ ∧ Canonical 8 ⟨1, 3⟩ ∧
        ratio_less 8 ⟨RATIO_MAX 8, 2⟩ ⟨1, 3⟩ = .error .MulOverflow) ∧
      (ratio_not_equal ⟨RATIO_MAX 8, 2⟩ ⟨1, 3⟩ = (!ratio_equal ⟨RATIO_MAX 8, 2⟩ ⟨1, 3⟩) ∧
        ((2 : Int) = 3 → ∃ v, ratio_less 8 ⟨RATIO_MAX 8, 2⟩ ⟨1, 3⟩ = .ok v) ∧
        ((2 : Int) ≠ 3 →
          ((∃ e, ratio_less 8 ⟨RATIO_MAX 8, 2⟩ ⟨1, 3⟩ = .error e) ↔
            (RATIO_MAX 8 < |RATIO_MAX 8| * 3 ∨ RATIO_MAX 8 < |(1 : Int)| * 2)) ∧
          (∀ e, ratio_less 8 ⟨RATIO_MAX 8, 2⟩ ⟨1, 3⟩ = .error e → e = .MulOverflow)) ∧
        (∀ e, ratio_less_equal 8 ⟨RATIO_MAX 8, 2⟩ ⟨1, 3⟩ = .error e
          ↔ ratio_less 8 ⟨1, 3⟩ ⟨RATIO_MAX 8, 2⟩ = .error e) ∧
        (∀ e, ratio_greater 8 ⟨RATIO_MAX 8, 2⟩ ⟨1, 3⟩ = .error e
          ↔ ratio_less 8 ⟨1, 3⟩ ⟨RATIO_MAX 8, 2⟩ = .error e) ∧
        (∀ e, ratio_greater_equal 8 ⟨RATIO_MAX 8, 2⟩ ⟨1, 3⟩ = .error e
          ↔ ratio_less 8 ⟨RATIO_MAX 8, 2⟩ ⟨1, 3⟩ = .error e)) :=
  ⟨⟨by decide, by decide, by decide, by decide⟩,
    comparator_failures 8 (by decide) ⟨RATIO_MAX 8, 2⟩ ⟨1, 3⟩ (by decide) (by decide)⟩

/-! ## Representable products and the subtrahend `RATIO_MIN` -/

/-- C22 (counterexample): in the 64-bit configuration the exact product of `-(2^32)` and
`2^31` is `RATIO_MIN`, which lies in the domain, yet `ratio_checked_multiply` trips
"mul overflow". -/
theorem ratio_checked_multiply_rejects_min :
    InRange 8 (-4294967296) ∧ InRange 8 2147483648 ∧
      (-4294967296 : Int) * 2147483648 = RATIO_MIN 8 ∧
      InRange 8 ((-4294967296 : Int) * 2147483648) ∧
      ratio_checked_multiply 8 (-4294967296) 2147483648 = .error .MulOverflow := by
  decide

/-- C22 (amended): for `a`, `b` in the domain, the pairs `(0, RATIO_MIN)` and
`(RATIO_MIN, 0)` apart, `ratio_checked_multiply<a, b>` is instantiated without error
exactly when the exact product lies in `[-RATIO_MAX, RATIO_MAX]`; a product equal to
`RATIO_MIN` is refused. -/
theorem ratio_checked_multiply_symmetric_range (sz : Nat) (hsz : 0 < sz) (a b : Int)
    (ha : InRange sz a) (hb : InRange sz b)
    (hz : ¬ ((a = 0 ∧ b = RATIO_MIN sz) ∨ (a = RATIO_MIN sz ∧ b = 0))) :
    ((∃ v, ratio_checked_multiply sz a b = .ok v) ↔
      (-RATIO_MAX sz ≤ a * b ∧ a * b ≤ RATIO_MAX sz)) ∧
      (a * b = RATIO_MIN sz → ratio_checked_multiply sz a b = .error .MulOverflow) := by
  rw [ratio_checked_multiply_eq_abs sz hsz a b ha hb
    (fun h hb0 => hz (Or.inr ⟨h, hb0⟩)) (fun h ha0 => hz (Or.inl ⟨ha0, h⟩)), ← abs_mul, ← abs_le]
  have hH := half_pos sz
  by_cases h : |a * b| ≤ RATIO_MAX sz
  · rw [if_pos h]
    refine ⟨⟨fun _ => h, fun _ => ⟨_, rfl⟩⟩, fun hm => ?_⟩
    exfalso
    rw [hm] at h
    unfold RATIO_MIN RATIO_MAX at h
    rw [abs_neg, abs_of_pos hH] at h
    omega
  · rw [if_neg h]
    refine ⟨⟨?_, fun h' => absurd h' h⟩, fun _ => rfl⟩
    rintro ⟨v, hv⟩
    cases hv

/-- A concrete instance in the 64-bit configuration: `-3 * 5`. -/
theorem ratio_checked_multiply_symmetric_range_witness :
    (0 < 8 ∧ InRange 8 (-3) ∧ InRange 8 5 ∧
        ¬ (((-3 : Int) = 0 ∧ (5 : Int) = RATIO_MIN 8) ∨ ((-3 : Int) = RATIO_MIN 8 ∧ (5 : Int) = 0)) ∧
        ratio_checked_multiply 8 (-3) 5 = .ok (-15)) ∧
      (((∃ v, ratio_checked_multiply 8 (-3) 5 = .ok v) ↔
        (-RATIO_MAX 8 ≤ (-3 : Int) * 5 ∧ (-3 : Int) * 5 ≤ RATIO_MAX 8)) ∧
        ((-3 : Int) * 5 = RATIO_MIN 8 → ratio_checked_multiply 8 (-3) 5 = .error .MulOverflow)) :=
  ⟨⟨by decide, by decide, by decide, by decide, by decide⟩,
    ratio_checked_multiply_symmetric_range 8 (by decide) (-3) 5 (by decide) (by decide)
      (by decide)⟩

/-- C23: for every `a` in the domain, `ratio_checked_sub<a, RATIO_MIN>` trips
"sub underflow" and yields no value. -/
theorem ratio_checked_sub_min_fails (sz : Nat) (a : Int) (ha : InRange sz a) :
    ratio_checked_sub sz a (RATIO_MIN sz) = .error .SubUnderflow := by
  have hH := half_pos sz
  have hr := (inRange_iff sz a).1 ha
  unfold ratio_checked_sub
  rw [if_neg]
  rw [check_sub_flows_iff sz a _ ha (ratio_min_inRange sz)]
  unfold RATIO_MIN RATIO_MAX
  omega

/-- A concrete instance in the 64-bit configuration: `-1 - RATIO_MIN`, whose exact value
`RATIO_MAX` would be representable. -/
theorem ratio_checked_sub_min_fails_witness :
    InRange 8 (-1) ∧ ratio_checked_sub 8 (-1) (RATIO_MIN 8) = .error .SubUnderflow :=
  ⟨by decide, ratio_checked_sub_min_fails 8 (-1) (by decide)⟩


/-! ## Values of `gcd` -/

/-- C24 (evaluation at the failing input): in the 64-bit configuration `gcd<RATIO_MIN, 6>`
is instantiated without error, its arguments being in the domain and not both zero, and
its value is `-2`, which is not positive. -/
theorem gcd_min_six_negative :
    InRange 8 (RATIO_MIN 8) ∧ InRange 8 6 ∧ gcd 8 (RATIO_MIN 8) 6 = .ok (-2) ∧
      ¬ ((0 : Int) < -2) ∧ Int.gcd (RATIO_MIN 8) 6 = 2 := by
  decide

/-- C25 (counterexample): in the 64-bit configuration `gcd<-3, 0>` and `gcd<0, -3>` are `3`,
not `-3`. -/
theorem gcd_zero_argument_is_abs :
    InRange 8 (-3) ∧ gcd 8 (-3) 0 = .ok 3 ∧ gcd 8 0 (-3) = .ok 3 ∧ (3 : Int) ≠ -3 := by
  decide

/-- C25 (amended): for every non-zero `a` of the domain other than `RATIO_MIN`,
`gcd<a, 0>` and `gcd<0, a>` are the absolute value of `a`, hence `a` itself when `a` is
positive. -/
theorem gcd_zero_argument (sz : Nat) (a : Int) (ha : InRange sz a) (hm : a ≠ RATIO_MIN sz)
    (h0 : a ≠ 0) :
    gcd sz a 0 = .ok |a| ∧ gcd sz 0 a = .ok |a| ∧
      (0 < a → gcd sz a 0 = .ok a ∧ gcd sz 0 a = .ok a) := by
  have hr := (inRange_iff sz a).1 ha
  unfold RATIO_MIN at hm
  have hab : abs sz a = |a| := abs_eq sz a (by omega) hr.2
  have hz : abs sz 0 = 0 := by unfold abs; simp
  have hne : |a| ≠ 0 := abs_ne_zero.2 h0
  have e1 : gcd sz a 0 = .ok |a| := by
    unfold gcd
    rw [hab, hz]
    show gcd_impl 1 |a| 0 = .ok |a|
    unfold gcd_impl
    simp [hne]
  have e2 : gcd sz 0 a = .ok |a| := by
    unfold gcd
    rw [hab, hz]
    unfold gcd_impl
    simp [hne]
  refine ⟨e1, e2, fun hpos => ?_⟩
  rw [e1, e2, abs_of_pos hpos]
  exact ⟨rfl, rfl⟩

/-- A concrete instance in the 64-bit configuration: `a = -12`. -/
theorem gcd_zero_argument_witness :
    (InRange 8 (-12) ∧ (-12 : Int) ≠ RATIO_MIN 8 ∧ (-12 : Int) ≠ 0) ∧
      (gcd 8 (-12) 0 = .ok |(-12 : Int)| ∧ gcd 8 0 (-12) = .ok |(-12 : Int)| ∧
        ((0 : Int) < -12 → gcd 8 (-12) 0 = .ok (-12) ∧ gcd 8 0 (-12) = .ok (-12))) :=
  ⟨⟨by decide, by decide, by decide⟩, gcd_zero_argument 8 (-12) (by decide) (by decide) (by decide)⟩

/-- C26 (evaluation at the failing input): in the 64-bit configuration, for the canonical
values `RATIO_MIN/1` and `1/5` the divisor `gcd1 = gcd<R1::num, R2::den>` of
`ratio_multiply` is `-1`, and the division `R1::num / gcd1` overflows back to `RATIO_MIN`
instead of giving the exact quotient `2^63`. -/
theorem ratio_multiply_negative_divisor :
    Canonical 8 ⟨RATIO_MIN 8, 1⟩ ∧ Canonical 8 ⟨1, 5⟩ ∧
      gcd 8 (⟨RATIO_MIN 8, 1⟩ : RationalValue).num (⟨1, 5⟩ : RationalValue).den = .ok (-1) ∧
      sdiv 8 (RATIO_MIN 8) (-1) = RATIO_MIN 8 ∧
      sdiv 8 (RATIO_MIN 8) (-1) * -1 ≠ RATIO_MIN 8 := by
  decide


/-! ## Commutativity of `ratio_add` -/

/-- `gcd` of two positive values of the domain is their greatest common divisor. -/
theorem gcd_pos_eq (sz : Nat) (b d : Int) (hb : 0 < b) (hd : 0 < d)
    (hbr : InRange sz b) (hdr : InRange sz d) :
    gcd sz b d = .ok (Int.gcd b d : Int) := by
  have hH := half_pos sz
  obtain ⟨g, hgv, hgcd, hpos⟩ := gcd_spec sz b d hbr hdr (Or.inl hb.ne')
  have hgp := hpos (by unfold RATIO_MIN; omega) (by unfold RATIO_MIN; omega)
  rw [hgv, ← hgcd, Int.natAbs_of_nonneg hgp.le]

theorem check_add_flows_comm (sz : Nat) (x y : Int) (hx : InRange sz x) (hy : InRange sz y) :
    check_add_flows sz x y = check_add_flows sz y x := by
  rw [Bool.eq_iff_iff, check_add_flows_iff sz x y hx hy, check_add_flows_iff sz y x hy hx,
    add_comm x y]
  constructor <;> rintro ⟨h1, h2, h3⟩ <;> refine ⟨h1, ?_, ?_⟩
  · exact fun h => h3 ⟨h.2, h.1⟩
  · exact fun h => h2 ⟨h.2, h.1⟩
  · exact fun h => h3 ⟨h.2, h.1⟩
  · exact fun h => h2 ⟨h.2, h.1⟩

theorem ratio_checked_add_comm (sz : Nat) (x y : Int) (hx : InRange sz x) (hy : InRange sz y) :
    ratio_checked_add sz x y = ratio_checked_add sz y x := by
  unfold ratio_checked_add
  rw [check_add_flows_comm sz x y hx hy, add_comm x y]

/-- Helper for the commutativity of addition on values with positive denominators in the
domain: the two orders give the same outcome, failures and their diagnostics included. -/
theorem ratio_add_comm_aux (sz : Nat) (hsz : 0 < sz) (R1 R2 : RationalValue)
    (hd1 : 0 < R1.den) (hd2 : 0 < R2.den) (hn1r : InRange sz R1.num) (hn2r : InRange sz R2.num)
    (hd1r : InRange sz R1.den) (hd2r : InRange sz R2.den) :
    ratio_add sz R1 R2 = ratio_add sz R2 R1 := by
  have hH := half_pos sz
  have hd1m : R1.den ≠ RATIO_MIN sz := by unfold RATIO_MIN; omega
  have hd2m : R2.den ≠ RATIO_MIN sz := by unfold RATIO_MIN; omega
  have hg12 := gcd_pos_eq sz R1.den R2.den hd1 hd2 hd1r hd2r
  have hg21 := gcd_pos_eq sz R2.den R1.den hd2 hd1 hd2r hd1r
  rw [Int.gcd_comm R2.den R1.den] at hg21
  have hG0 : (0 : Int) < (Int.gcd R1.den R2.den : Int) := by
    have : 0 < Int.gcd R1.den R2.den := Int.gcd_pos_of_ne_zero_left _ hd1.ne'
    exact_mod_cast this
  generalize (Int.gcd R1.den R2.den : Int) = g at *
  unfold ratio_add
  rw [hg12, hg21]
  simp only [bind, Except.bind]
  have hdv1 : g ∣ R1.den ∧ g ∣ R2.den := by
    obtain ⟨g', hg', hgcd', -⟩ := gcd_spec sz R1.den R2.den hd1r hd2r (Or.inl hd1.ne')
    rw [hg12] at hg'
    have := Except.ok.inj hg'
    subst this
    exact gcd_value_dvd _ _ _ hgcd'
  have hy1 : sdiv sz R1.den g * g = R1.den := by
    obtain ⟨hq, hc | hc⟩ := sdiv_cases sz R1.den g hd1r hdv1.1 hG0.ne'
    · rw [hc.1]; exact hq
    · exact absurd hc.1 hd1m
  have hy2 : sdiv sz R2.den g * g = R2.den := by
    obtain ⟨hq, hc | hc⟩ := sdiv_cases sz R2.den g hd2r hdv1.2 hG0.ne'
    · rw [hc.1]; exact hq
    · exact absurd hc.1 hd2m
  have hy1r := sdiv_inRange sz R1.den g
  have hy2r := sdiv_inRange sz R2.den g
  generalize sdiv sz R1.den g = y1 at *
  generalize sdiv sz R2.den g = y2 at *
  have hlcm : R1.den * y2 = R2.den * y1 := by
    apply mul_right_cancel₀ hG0.ne'
    calc R1.den * y2 * g = R1.den * (y2 * g) := by ring
      _ = R2.den * (y1 * g) := by rw [hy1, hy2]; ring
      _ = R2.den * y1 * g := by ring
  have hden : ratio_checked_multiply sz R1.den y2 = ratio_checked_multiply sz R2.den y1 := by
    rw [ratio_checked_multiply_eq_abs sz hsz _ _ hd1r hy2r (fun h => absurd h hd1m)
        (fun _ => hd1.ne'),
      ratio_checked_multiply_eq_abs sz hsz _ _ hd2r hy1r (fun h => absurd h hd2m)
        (fun _ => hd2.ne'), ← abs_mul, ← abs_mul, hlcm]
  rw [hden]
  cases hn1 : ratio_checked_multiply sz R1.num y2 with
  | error e1 =>
    have he1 := ratio_checked_multiply_error _ _ _ e1 hn1
    subst he1
    cases hn2 : ratio_checked_multiply sz R2.num y1 with
    | error e2 =>
      have he2 := ratio_checked_multiply_error _ _ _ e2 hn2
      subst he2
      rfl
    | ok n2 => rfl
  | ok n1 =>
    cases hn2 : ratio_checked_multiply sz R2.num y1 with
    | error e2 => rfl
    | ok n2 =>
      simp only
      obtain ⟨e1, b1⟩ := ratio_checked_multiply_ok sz hsz _ _ n1 hn1r hy2r hn1
      obtain ⟨e2, b2⟩ := ratio_checked_multiply_ok sz hsz _ _ n2 hn2r hy1r hn2
      obtain ⟨r1, -⟩ := product_inRange sz _ _ b1
      obtain ⟨r2, -⟩ := product_inRange sz _ _ b2
      rw [← e1] at r1
      rw [← e2] at r2
      rw [ratio_checked_add_comm sz n1 n2 r1 r2]

/-- C27: for canonical `R1` and `R2`, `ratio_add<R1, R2>` and `ratio_add<R2, R1>` have the
same outcome: one fails exactly when the other does, with the same diagnostic, and when
they succeed they have the same `num` and the same `den`. -/
theorem ratio_add_comm (sz : Nat) (hsz : 0 < sz) (R1 R2 : RationalValue)
    (h1 : Canonical sz R1) (h2 : Canonical sz R2) :
    ratio_add sz R1 R2 = ratio_add sz R2 R1 ∧
      (∀ e, ratio_add sz R1 R2 = .error e ↔ ratio_add sz R2 R1 = .error e) ∧
      (∀ R R', ratio_add sz R1 R2 = .ok R → ratio_add sz R2 R1 = .ok R' →
        R.num = R'.num ∧ R.den = R'.den) := by
  have h := ratio_add_comm_aux sz hsz R1 R2 h1.1 h2.1 h1.2.2.1 h2.2.2.1 h1.2.2.2 h2.2.2.2
  refine ⟨h, fun e => by rw [h], fun R R' hR hR' => ?_⟩
  rw [h, hR'] at hR
  have := Except.ok.inj hR
  subst this
  exact ⟨rfl, rfl⟩

/-- A concrete instance in the 64-bit configuration: `1/3 + 1/6` in both orders. -/
theorem ratio_add_comm_witness :
    (0 < 8 ∧ Canonical 8 ⟨1, 3⟩ ∧ Canonical 8 ⟨1, 6⟩ ∧
        ratio_add 8 ⟨1, 3⟩ ⟨1, 6⟩ = .ok ⟨1, 2⟩) ∧
      (ratio_add 8 ⟨1, 3⟩ ⟨1, 6⟩ = ratio_add 8 ⟨1, 6⟩ ⟨1, 3⟩ ∧
        (∀ e, ratio_add 8 ⟨1, 3⟩ ⟨1, 6⟩ = .error e ↔ ratio_add 8 ⟨1, 6⟩ ⟨1, 3⟩ = .error e) ∧
        (∀ R R', ratio_add 8 ⟨1, 3⟩ ⟨1, 6⟩ = .ok R → ratio_add 8 ⟨1, 6⟩ ⟨1, 3⟩ = .ok R' →
          R.num = R'.num ∧ R.den = R'.den)) :=
  ⟨⟨by decide, by decide, by decide, by decide⟩,
    ratio_add_comm 8 (by decide) ⟨1, 3⟩ ⟨1, 6⟩ (by decide) (by decide)⟩


end Ntl
